import Mathlib

/-!
Verification development for the circuit analysis tool.

The repository builds a circuit graph from a declaration sequence
(`read_circuit`), orders it topologically with Kahn's algorithm
(`topological_sort`), propagates per-node arrival delays over that order
and extracts the critical path (`find_critical_path`).  The same pipeline
exists twice: as methods of `class Circuit` in `circuit_class.py` and as
module-level functions in `script.py`; the two differ only in error
handling details noted at the corresponding definitions below.

Modelling conventions:
* Python float delays are modelled exactly, as integers counting tenths
  of a time unit: the delay table holds only 1.0, 0.2 and 0.5, every
  arrival time is a sum of these, and the algorithm only ever adds such
  values, takes maxima of them and compares them for equality and order,
  all of which the rescaling x -> 10x preserves; so a delay of d time
  units appears here as the integer 10 * d (e.g. the scenario total 2.00
  is the integer 20).
* Python dicts keyed by node identity are modelled as association lists
  (insertion-ordered, as Python dicts are) when iteration order matters,
  and as functions `String -> Option _` for the delay and predecessor
  tables whose iteration order is never observed.
* A raised Python exception is an `Except.error` carrying the message;
  `script.py`'s `try/except` wrappers that swallow the exception are
  modelled by matching on that `Except`.
* A Python loop that could run forever (the predecessor walk) gets a fuel
  argument; exhaustion is an `Except.error`, and the proofs show the fuel
  bound is never hit on the inputs the theorems speak about.

Text-file parsing is an external adapter (spec section 1); the builder is
modelled from its post-parse input: an ordered sequence of declarations
`(kind, id, input ids)` exactly as in the builder contract of
spec section 4.2.
-/

/-- A circuit node as stored in `nodes[node_id]` by `read_circuit`
(`circuit_class.py` lines 47-52, `script.py` lines 108-113): the component
kind and the declared, ordered input identities.  The `unique_id` counter
and the stored `outputs` adjacency are omitted here: the former is used
only by the visualization adapter, and the latter is derived (see
`outputsOf`), reproducing exactly the list the second pass of
`read_circuit` appends. -/
structure Node where
  type : String
  inputs : List String
deriving Repr, DecidableEq

/-- One declaration line after whitespace splitting:
`<KIND> <NODE_ID> [<INPUT_ID> ...]`. -/
structure Decl where
  kind : String
  id : String
  args : List String
deriving Repr, DecidableEq

/-- The built circuit: the node mapping in declaration order plus the
derived primary-input and primary-output identity lists. -/
structure Circuit where
  nodes : List (String × Node)
  inputs : List String
  outputs : List String
deriving Repr, DecidableEq

/-- The declared node identities, in declaration order. -/
def keys (c : Circuit) : List String :=
  c.nodes.map Prod.fst

/-- Binding lookup in an association list (first match). -/
def lookupIn (ns : List (String × Node)) (x : String) : Option Node :=
  (ns.find? (fun p => p.1 == x)).map Prod.snd

/-- `self.nodes[x]`: first binding of `x` in the association list. -/
def lookupNode (c : Circuit) (x : String) : Option Node :=
  lookupIn c.nodes x

/-- Declared inputs of node `x` (empty if `x` is not declared). -/
def inputsOf (c : Circuit) (x : String) : List String :=
  ((lookupNode c x).map Node.inputs).getD []

/-- The entries node `p` contributes to the stored `outputs` adjacency of
`x`: one copy of `p`'s identity per occurrence of `x` in `p`'s inputs. -/
def outsFor (x : String) (p : String × Node) : List String :=
  (p.2.inputs.filter (fun i => i == x)).map (fun _ => p.1)

/-- The stored `outputs` adjacency of node `x`, derived: the second pass of
`read_circuit` iterates nodes in declaration order and, for each occurrence
of `x` in a node's input list, appends that node's identity to
`nodes[x]["outputs"]`. -/
def outputsOf (c : Circuit) (x : String) : List String :=
  c.nodes.flatMap (outsFor x)

/-- Python dict assignment `nodes[id] = n`: replace in place if the key
exists, else append (dicts keep the original insertion position on
re-assignment). -/
def insertNode (nodes : List (String × Node)) (nid : String) (n : Node) :
    List (String × Node) :=
  if nodes.any (fun p => p.1 == nid) then
    nodes.map (fun p => if p.1 == nid then (nid, n) else p)
  else
    nodes ++ [(nid, n)]

/-- First pass of `read_circuit` (identical in both files): fold the
declarations into the node mapping and classify `INPUT` / `OUTPUT`
identities into the respective lists. -/
def buildCircuit (decls : List Decl) : Circuit :=
  decls.foldl
    (fun acc d =>
      { nodes := insertNode acc.nodes d.id ⟨d.kind, d.args⟩
        inputs := if d.kind == "INPUT" then acc.inputs ++ [d.id] else acc.inputs
        outputs := if d.kind == "OUTPUT" then acc.outputs ++ [d.id] else acc.outputs })
    ⟨[], [], []⟩

/-- Second pass of `read_circuit`: scan nodes in declaration order and their
inputs in declared order; report the first reference to an undeclared
identity as `(offending node, missing identity)`. -/
def firstDangling (nodes : List (String × Node)) : Option (String × String) :=
  nodes.findSome? (fun p =>
    (p.2.inputs.find? (fun i => !(nodes.any (fun q => q.1 == i)))).map
      (fun i => (p.1, i)))

/-- `Circuit.read_circuit` (`circuit_class.py` lines 22-68): build the node
mapping, then resolve every input reference; the first dangling reference
raises `ValueError(f"Undefined input node: {input_id}")`, re-wrapped by the
outer handler into `ValueError(f"Error reading circuit: {ve}")`. -/
def Circuit.read_circuit (decls : List Decl) : Except String Circuit :=
  let c := buildCircuit decls
  match firstDangling c.nodes with
  | some pr => .error ("Error reading circuit: Undefined input node: " ++ pr.2)
  | none => .ok c

namespace Script

/-- Body of `read_circuit` in `script.py` (lines 71-128) before its
`try/except`: same construction, but the dangling-reference error is
`KeyError(f"Input {input_id} referenced by {node_id} not found in nodes.")`,
naming both the offending node and the missing identity. -/
def read_circuit_core (decls : List Decl) : Except String Circuit :=
  let c := buildCircuit decls
  match firstDangling c.nodes with
  | some pr =>
      .error ("Input " ++ pr.2 ++ " referenced by " ++ pr.1 ++ " not found in nodes.")
  | none => .ok c

/-- `read_circuit` in `script.py`: the surrounding `except Exception`
(lines 131-133) prints the message and returns `None`. -/
def read_circuit (decls : List Decl) : Option Circuit :=
  (read_circuit_core decls).toOption

end Script

/-- The `component_delays` dict shared by both files, in tenths of a time
unit: `ADD 1.0, MUL 1.0, REG 0.2, MUX 1.0, DEFAULT 0.5` become
`10, 10, 2, 10, 5`. -/
def component_delays (k : String) : Option Int :=
  if k = "ADD" then some 10
  else if k = "MUL" then some 10
  else if k = "REG" then some 2
  else if k = "MUX" then some 10
  else if k = "DEFAULT" then some 5
  else none

/-- `component_delays.get(node_type, component_delays["DEFAULT"])`. -/
def delayOfType (t : String) : Int :=
  match component_delays t with
  | some d => d
  | none => 5

/-- One pass of the inner `for neighbor in nodes[current]["outputs"]` loop
of `topological_sort`: decrement the neighbour's in-degree and enqueue it
when the count reaches exactly zero.  Degrees are `Int`, as Python's
integers can go negative. -/
def processOuts (deg : String → Int) (queue : List String) :
    List String → (String → Int) × List String
  | [] => (deg, queue)
  | nb :: rest =>
      let deg2 : String → Int := fun x => if x = nb then deg x - 1 else deg x
      let queue2 := if deg2 nb = 0 then queue ++ [nb] else queue
      processOuts deg2 queue2 rest

/-- The `while queue:` loop of `topological_sort`.  Python iterates until
the queue empties; the fuel argument bounds the iteration count, and
`c.nodes.length` iterations always suffice because each iteration appends
one previously unseen node to the output (proved below). -/
def kahnLoop (c : Circuit) : Nat → (String → Int) → List String → List String → List String
  | 0, _, _, sorted => sorted
  | fuel + 1, deg, queue, sorted =>
      match queue with
      | [] => sorted
      | current :: rest =>
          let st := processOuts deg rest (outputsOf c current)
          kahnLoop c fuel st.1 st.2 (sorted ++ [current])

/-- `Circuit.topological_sort` (`circuit_class.py` lines 121-145).  The
identical code is inlined in `script.py`'s `find_critical_path`
(lines 154-170); both are embedded by this one definition.  In-degrees are
initialized to each node's declared input count; the frontier is seeded
with the zero-in-degree nodes in declaration order. -/
def Circuit.topological_sort (c : Circuit) : List String :=
  let deg0 : String → Int := fun x =>
    match lookupNode c x with
    | some n => (n.inputs.length : Int)
    | none => 0
  let queue0 := (c.nodes.filter (fun p => p.2.inputs.length == 0)).map Prod.fst
  kahnLoop c c.nodes.length deg0 queue0 []

/-- The delay/predecessor state threaded through delay propagation. -/
def PropState := (String → Option Int) × (String → Option String)

/-- The `max_input_delay` loop of `circuit_class.py` (lines 91-93):
`max_input_delay = max(max_input_delay, delays[input_id])`, where a missing
entry raises `KeyError`. -/
def maxFoldClass (delays : String → Option Int) : Int → List String → Except String Int
  | acc, [] => .ok acc
  | acc, i :: rest =>
      match delays i with
      | none => .error ("KeyError: " ++ i)
      | some d => maxFoldClass delays (max acc d) rest

/-- The `max_input_delay` loop of `script.py` (lines 177-179): guarded by
`if input_id in delays`, a missing entry is silently skipped. -/
def maxFoldScript (delays : String → Option Int) : Int → List String → Int
  | acc, [] => acc
  | acc, i :: rest =>
      match delays i with
      | none => maxFoldScript delays acc rest
      | some d => maxFoldScript delays (max acc d) rest

/-- The predecessor-recording loop (`circuit_class.py` lines 98-100,
`script.py` lines 184-186, identical in both files):
`if delays[node_id] == delays[input_id] + component_delay:
predecessors[node_id] = input_id`.  The lookup `delays[input_id]` is
unguarded in both files, so a missing entry raises `KeyError`.  Matching
inputs overwrite the entry, so the last match in declared input order is
the one retained. -/
def predFold (delays : String → Option Int) (dn cd : Int) :
    Option String → List String → Except String (Option String)
  | p0, [] => .ok p0
  | p0, i :: rest =>
      match delays i with
      | none => .error ("KeyError: " ++ i)
      | some di => predFold delays dn cd (if dn = di + cd then some i else p0) rest

/-- One iteration of the delay-propagation loop of
`Circuit.find_critical_path` (`circuit_class.py` lines 88-100) for node
`nid`: look the node up, take the maximum input delay (unguarded lookups),
assign `delays[nid] = max + component_delay`, then run the predecessor
loop against the updated table. -/
def stepClass (c : Circuit) (st : PropState) (nid : String) : Except String PropState :=
  match lookupNode c nid with
  | none => .error ("KeyError: " ++ nid)
  | some node =>
      match maxFoldClass st.1 0 node.inputs with
      | .error e => .error e
      | .ok m =>
          let cd := delayOfType node.type
          let dn := m + cd
          let delays2 : String → Option Int := fun x => if x = nid then some dn else st.1 x
          match predFold delays2 dn cd (st.2 nid) node.inputs with
          | .error e => .error e
          | .ok pn => .ok (delays2, fun x => if x = nid then pn else st.2 x)

/-- One iteration of the delay-propagation loop of `script.py`
(lines 173-186): identical to `stepClass` except that the maximum-delay
loop skips inputs missing from the table instead of raising. -/
def stepScript (c : Circuit) (st : PropState) (nid : String) : Except String PropState :=
  match lookupNode c nid with
  | none => .error ("KeyError: " ++ nid)
  | some node =>
      let m := maxFoldScript st.1 0 node.inputs
      let cd := delayOfType node.type
      let dn := m + cd
      let delays2 : String → Option Int := fun x => if x = nid then some dn else st.1 x
      match predFold delays2 dn cd (st.2 nid) node.inputs with
      | .error e => .error e
      | .ok pn => .ok (delays2, fun x => if x = nid then pn else st.2 x)

/-- `for node_id in sorted_nodes:` — thread the propagation step over the
topological order, stopping at the first raised exception. -/
def propagateWith (step : Circuit → PropState → String → Except String PropState)
    (c : Circuit) : PropState → List String → Except String PropState
  | st, [] => .ok st
  | st, nid :: rest =>
      match step c st nid with
      | .error e => .error e
      | .ok st2 => propagateWith step c st2 rest

/-- Tail of Python's `max(outputs, key=lambda n: delays[n])` once the first
element's key is known: a later element replaces the best only when its key
is strictly greater, so the first maximal output in declaration order wins. -/
def pickMaxGo (delays : String → Option Int) (bid : String) (bval : Int) :
    List String → Except String (String × Int)
  | [] => .ok (bid, bval)
  | o :: rest =>
      match delays o with
      | none => .error ("KeyError: " ++ o)
      | some d =>
          if bval < d then pickMaxGo delays o d rest else pickMaxGo delays bid bval rest

/-- `max(self.outputs, key=lambda node_id: delays[node_id])`: raises
`ValueError` on an empty output list, `KeyError` on a missing delay. -/
def pickMax (delays : String → Option Int) : List String → Except String (String × Int)
  | [] => .error "max() arg is an empty sequence"
  | o :: rest =>
      match delays o with
      | none => .error ("KeyError: " ++ o)
      | some d => pickMaxGo delays o d rest

/-- The backward walk `while current_node in predecessors` reconstructing
the critical path by prepending each visited node.  Python has no bound on
this loop; fuel exhaustion models divergence on a cyclic predecessor map
(never reached on valid graphs, as proved below). -/
def walkBack (preds : String → Option String) :
    Nat → String → List String → Except String (List String)
  | 0, _, _ => .error "nonterminating predecessor chain"
  | fuel + 1, current, acc =>
      match preds current with
      | none => .ok (current :: acc)
      | some p => walkBack preds fuel p (current :: acc)

/-- The `components_with_delays` comprehension: pair each path node with
its component delay; `self.nodes[node_id]` raises `KeyError` if absent. -/
def componentsOf (c : Circuit) : List String → Except String (List (String × Int))
  | [] => .ok []
  | n :: rest =>
      match lookupNode c n with
      | none => .error ("KeyError: " ++ n)
      | some node =>
          match componentsOf c rest with
          | .error e => .error e
          | .ok tl => .ok ((n, delayOfType node.type) :: tl)

/-- Initial delay table of `find_critical_path` (both files): input-node
identities at arrival time 0, everything else absent. -/
def initDelays (c : Circuit) : String → Option Int :=
  fun x => if x ∈ c.inputs then some 0 else none

/-- Initial (empty) predecessor map. -/
def initPreds : String → Option String :=
  fun _ => none

/-- The delay-propagation phase of `Circuit.find_critical_path`
(`circuit_class.py` lines 77-100) as a standalone value: initial tables
threaded through `stepClass` over the topological order. -/
def Circuit.propagate (c : Circuit) : Except String PropState :=
  propagateWith stepClass c (initDelays c, initPreds) c.topological_sort

/-- The delay-propagation phase of `script.py`'s `find_critical_path`
(lines 146-186). -/
def Script.propagate (c : Circuit) : Except String PropState :=
  propagateWith stepScript c (initDelays c, initPreds) c.topological_sort

/-- `Circuit.find_critical_path` (`circuit_class.py` lines 70-119):
initialize input delays to 0, topologically sort, propagate delays and
predecessors, pick the slowest output, walk the predecessor chain backward
and pair the path with component delays.  Exceptions propagate to the
caller. -/
def Circuit.find_critical_path (c : Circuit) :
    Except String (List String × Int × List (String × Int)) :=
  match c.propagate with
  | .error e => .error e
  | .ok st =>
      match pickMax st.1 c.outputs with
      | .error e => .error e
      | .ok bo =>
          match walkBack st.2 (c.nodes.length + 1) bo.1 [] with
          | .error e => .error e
          | .ok path =>
              match componentsOf c path with
              | .error e => .error e
              | .ok comps => .ok (path, bo.2, comps)

namespace Script

/-- Body of `find_critical_path` in `script.py` (lines 145-206) before its
`try/except`: the same pipeline, with the guarded maximum-delay loop
(`stepScript`) and the verbatim inlined copy of the topological sort. -/
def find_critical_path_core (c : Circuit) :
    Except String (List String × Int × List (String × Int)) :=
  match Script.propagate c with
  | .error e => .error e
  | .ok st =>
      match pickMax st.1 c.outputs with
      | .error e => .error e
      | .ok bo =>
          match walkBack st.2 (c.nodes.length + 1) bo.1 [] with
          | .error e => .error e
          | .ok path =>
              match componentsOf c path with
              | .error e => .error e
              | .ok comps => .ok (path, bo.2, comps)

/-- `find_critical_path` in `script.py`: the surrounding `except Exception`
(lines 207-209) prints the message and returns `([], 0, [])`. -/
def find_critical_path (c : Circuit) : List String × Int × List (String × Int) :=
  match find_critical_path_core c with
  | .ok r => r
  | .error _ => ([], 0, [])

end Script

/-- Delay-table entry of a propagation outcome (`none` if it raised). -/
def propDelay (r : Except String PropState) (k : String) : Option (Option Int) :=
  r.toOption.map (fun st => st.1 k)

/-- Predecessor-map entry of a propagation outcome (`none` if it raised). -/
def propPred (r : Except String PropState) (k : String) : Option (Option String) :=
  r.toOption.map (fun st => st.2 k)

/-- `pat` matches at the front of the character list. -/
def leadsWith : List Char → List Char → Bool
  | [], _ => true
  | _ :: _, [] => false
  | p :: ps, c :: cs => (p == c) && leadsWith ps cs

/-- `pat` occurs contiguously somewhere in the character list. -/
def occursInList (pat : List Char) : List Char → Bool
  | [] => pat.isEmpty
  | c :: cs => leadsWith pat (c :: cs) || occursInList pat cs

/-- Substring test, used to state which identities an error message names. -/
def occursIn (pat s : String) : Bool :=
  occursInList pat.toList s.toList

/-- `m` is the maximum arrival time among the inputs `l` in table `tbl`
(0 when `l` is empty): it bounds every input's arrival and is attained by
one of them. -/
def IsMaxArrival (tbl : String → Option Int) (l : List String) (m : Int) : Prop :=
  (l = [] → m = 0) ∧ (∀ i ∈ l, ∃ v, tbl i = some v ∧ v ≤ m) ∧
    (l ≠ [] → ∃ i ∈ l, tbl i = some m)

/-- The inputs of a node whose recorded arrival plus the node's component
delay exactly equals the node's arrival `dn` — the candidates of the
predecessor tie-break. -/
def tieMatches (tbl : String → Option Int) (dn cd : Int) (l : List String) : List String :=
  l.filter (fun i =>
    match tbl i with
    | some di => decide (dn = di + cd)
    | none => false)

/-- `l` lists every node after all of its declared inputs. -/
def OrderRespects (c : Circuit) (l : List String) : Prop :=
  ∀ s1 n s2, l = s1 ++ n :: s2 → ∀ i ∈ inputsOf c n, i ∈ s1

/-- A structurally valid acyclic graph, as `read_circuit` constructs it
from a well-formed declaration sequence: unique node identities, every
input reference resolving to a declared node, primary-input and
primary-output identities declared, and an acyclic input adjacency
(witnessed by a rank function strictly decreasing along input edges). -/
structure Valid (c : Circuit) : Prop where
  nodup : (keys c).Nodup
  closed : ∀ p ∈ c.nodes, ∀ i ∈ p.2.inputs, i ∈ keys c
  acyclic : ∃ rank : String → Nat, ∀ p ∈ c.nodes, ∀ i ∈ p.2.inputs, rank i < rank p.1
  inputs_sub : ∀ i ∈ c.inputs, i ∈ keys c
  outputs_sub : ∀ o ∈ c.outputs, o ∈ keys c

/-- The scenario of spec section 8: `INPUT a / INPUT b / ADD add1 a b /
MUL mul1 add1 b / OUTPUT out1 mul1` (also `circuit1` of `create_txt.py`). -/
def circuit1decls : List Decl :=
  [⟨"INPUT", "a", []⟩, ⟨"INPUT", "b", []⟩, ⟨"ADD", "add1", ["a", "b"]⟩,
   ⟨"MUL", "mul1", ["add1", "b"]⟩, ⟨"OUTPUT", "out1", ["mul1"]⟩]

/-- The graph `read_circuit` builds from `circuit1decls`. -/
def circuit1Graph : Circuit :=
  ⟨[("a", ⟨"INPUT", []⟩), ("b", ⟨"INPUT", []⟩), ("add1", ⟨"ADD", ["a", "b"]⟩),
    ("mul1", ⟨"MUL", ["add1", "b"]⟩), ("out1", ⟨"OUTPUT", ["mul1"]⟩)],
   ["a", "b"], ["out1"]⟩

/-- Propagation outcome on `circuit1Graph`. -/
def circuit1Prop : Except String PropState :=
  circuit1Graph.propagate

/-- A rank function witnessing that `circuit1Graph` is acyclic. -/
def circuit1Rank : String → Nat :=
  fun s => if s = "add1" then 1 else if s = "mul1" then 2 else if s = "out1" then 3 else 0

/-- The cyclic scenario of spec section 8: node `x` declares input `y` and
`y` declares input `x`. -/
def cyclicDecls : List Decl :=
  [⟨"ADD", "x", ["y"]⟩, ⟨"ADD", "y", ["x"]⟩]

/-- The graph built from `cyclicDecls`. -/
def cyclicGraph : Circuit :=
  ⟨[("x", ⟨"ADD", ["y"]⟩), ("y", ⟨"ADD", ["x"]⟩)], [], []⟩

/-- The dangling-reference scenario of spec section 8: an `OUTPUT` node
listing an undeclared input `ghost`. -/
def ghostDecls : List Decl :=
  [⟨"INPUT", "a", []⟩, ⟨"OUTPUT", "out1", ["ghost"]⟩]

/-- The empty graph, as built from the empty declaration sequence. -/
def emptyCircuit : Circuit :=
  ⟨[], [], []⟩

/-- Equality of modelled outcomes (raised message or returned value) is
decidable, so concrete runs can be settled by evaluation. -/
instance {ε α : Type} [DecidableEq ε] [DecidableEq α] : DecidableEq (Except ε α) :=
  fun a b =>
    match a, b with
    | .ok x, .ok y => if h : x = y then .isTrue (by rw [h]) else .isFalse (by simp [h])
    | .error x, .error y => if h : x = y then .isTrue (by rw [h]) else .isFalse (by simp [h])
    | .ok _, .error _ => .isFalse (by simp)
    | .error _, .ok _ => .isFalse (by simp)

/-- Loop invariant of `kahnLoop`, relating the in-degree table, the
frontier queue and the emitted order. -/
structure KahnInv (c : Circuit) (deg : String → Int) (queue sorted : List String) : Prop where
  nodup : (sorted ++ queue).Nodup
  sub : ∀ x ∈ sorted ++ queue, x ∈ keys c
  degEq : ∀ k ∈ keys c,
    deg k = ((inputsOf c k).filter (fun i => !(sorted.contains i))).length
  degNonKey : ∀ k, k ∉ keys c → deg k ≤ 0
  sortedOrd : ∀ s1 n s2, sorted = s1 ++ n :: s2 → ∀ i ∈ inputsOf c n, i ∈ s1
  queueDone : ∀ q ∈ queue, ∀ i ∈ inputsOf c q, i ∈ sorted
  untouchedPos : ∀ k ∈ keys c, k ∉ sorted → k ∉ queue → deg k ≠ 0

/-- Invariant of the delay-propagation fold after the nodes `done` have
been processed: unprocessed identities still carry their initial table
entries, and every processed node satisfies the arrival-time recurrence
and the last-match predecessor rule. -/
structure PropMid (c : Circuit) (done : List String) (st : PropState) : Prop where
  untouchedD : ∀ k, k ∉ done → st.1 k = initDelays c k
  untouchedP : ∀ k, k ∉ done → st.2 k = initPreds k
  arrival : ∀ k ∈ done, ∃ node m, lookupNode c k = some node ∧
    IsMaxArrival st.1 node.inputs m ∧ st.1 k = some (m + delayOfType node.type)
  predLast : ∀ k ∈ done, ∀ node, lookupNode c k = some node → node.inputs ≠ [] →
    ∃ dn, st.1 k = some dn ∧
      tieMatches st.1 dn (delayOfType node.type) node.inputs ≠ [] ∧
      st.2 k = (tieMatches st.1 dn (delayOfType node.type) node.inputs).getLast?
  predNone : ∀ k ∈ done, ∀ node, lookupNode c k = some node → node.inputs = [] →
    st.2 k = none
  nonneg : ∀ k v, st.1 k = some v → 0 ≤ v

/-! ## Concrete runs of the pipeline -/

/-- C2 (counterexample): on the section-8 scenario the pipeline's total
delay is 3.0 time units (30 tenths), not the claimed 2.00 (20 tenths):
the `INPUT` and `OUTPUT` nodes also receive the default component delay
0.5, because the propagation loop reprocesses every sorted node, input
nodes included. -/
theorem circuit1_total_delay_not_twenty :
    Circuit.read_circuit circuit1decls = .ok circuit1Graph ∧
    Circuit.find_critical_path circuit1Graph =
      .ok (["b", "add1", "mul1", "out1"], 30,
        [("b", 5), ("add1", 10), ("mul1", 10), ("out1", 5)]) ∧
    ∀ path comps, Circuit.find_critical_path circuit1Graph ≠ .ok (path, 20, comps) := by
  refine ⟨by decide, by decide, ?_⟩
  intro path comps hcontra
  have heq : Circuit.find_critical_path circuit1Graph =
      .ok (["b", "add1", "mul1", "out1"], 30,
        [("b", 5), ("add1", 10), ("mul1", 10), ("out1", 5)]) := by decide
  rw [heq] at hcontra
  simp only [Except.ok.injEq, Prod.mk.injEq] at hcontra
  omega

/-- C2 (amended): the scenario `INPUT a / INPUT b / ADD add1 a b /
MUL mul1 add1 b / OUTPUT out1 mul1` yields the critical path
`b -> add1 -> mul1 -> out1` (the tie at `add1` resolves to the last
declared input `b`) with total delay 3.0 time units (30 tenths), the
components contributing 0.5, 1.0, 1.0 and 0.5. -/
theorem circuit1_pipeline_result :
    Circuit.read_circuit circuit1decls = .ok circuit1Graph ∧
    Circuit.find_critical_path circuit1Graph =
      .ok (["b", "add1", "mul1", "out1"], 30,
        [("b", 5), ("add1", 10), ("mul1", 10), ("out1", 5)]) := by
  exact ⟨by decide, by decide⟩

/-- C1 (counterexample): in the scenario graph both declared inputs of
`add1` satisfy the arrival equality (5 + 10 = 15 tenths for each), yet the
predecessor map records `b`, the last of the tied inputs in declared
order, not the first (`a`). -/
theorem circuit1_pred_tie_is_last_not_first :
    propDelay circuit1Prop "a" = some (some 5) ∧
    propDelay circuit1Prop "b" = some (some 5) ∧
    propDelay circuit1Prop "add1" = some (some 15) ∧
    ((5 : Int) + 10 = 15) ∧
    propPred circuit1Prop "add1" = some (some "b") ∧
    propPred circuit1Prop "add1" ≠ some (some "a") := by
  decide

/-- C3 (counterexample): after propagation the primary input `a` of the
scenario graph carries arrival time 0.5 (5 tenths), not 0; likewise the
first node `b` of the extracted critical path. -/
theorem circuit1_input_arrival_nonzero :
    "a" ∈ circuit1Graph.inputs ∧
    propDelay circuit1Prop "a" = some (some 5) ∧
    propDelay circuit1Prop "a" ≠ some (some 0) ∧
    Circuit.find_critical_path circuit1Graph =
      .ok (["b", "add1", "mul1", "out1"], 30,
        [("b", 5), ("add1", 10), ("mul1", 10), ("out1", 5)]) ∧
    propDelay circuit1Prop "b" = some (some 5) ∧
    propDelay circuit1Prop "b" ≠ some (some 0) := by
  decide

/-- C5 (code evaluated at the failing input): on the two-node cycle
`x <-> y` the topological sort silently returns a truncated (empty) order
instead of raising a cycle-detected error; downstream, the class pipeline
dies with the unrelated empty-sequence `ValueError` of `max` and the
script pipeline swallows the exception and returns `([], 0, [])`. -/
theorem cycle_silently_truncated :
    Circuit.read_circuit cyclicDecls = .ok cyclicGraph ∧
    cyclicGraph.nodes.length = 2 ∧
    cyclicGraph.topological_sort = [] ∧
    Circuit.find_critical_path cyclicGraph = .error "max() arg is an empty sequence" ∧
    Script.find_critical_path cyclicGraph = ([], 0, []) := by
  decide

/-- C8 (counterexample): the class builder's dangling-reference message
names only the missing identity `ghost`; the offending node `out1` does
not occur in it. -/
theorem ghost_error_omits_offending_node :
    Circuit.read_circuit ghostDecls =
      .error "Error reading circuit: Undefined input node: ghost" ∧
    occursIn "ghost" "Error reading circuit: Undefined input node: ghost" = true ∧
    occursIn "out1" "Error reading circuit: Undefined input node: ghost" = false := by
  decide

/-! ## Missing-delay behaviour of the propagation step (C7) -/

/-- The unguarded maximum-delay loop of `circuit_class.py` raises on the
first input missing from the delay table. -/
theorem maxFoldClass_error_of_missing (delays : String → Option Int) (l : List String)
    (i : String) (hi : i ∈ l) (h : delays i = none) :
    ∀ acc, ∃ e, maxFoldClass delays acc l = .error e := by
  induction l with
  | nil => cases hi
  | cons j rest ih =>
      intro acc
      cases hj : delays j with
      | none => exact ⟨"KeyError: " ++ j, by simp [maxFoldClass, hj]⟩
      | some d =>
          have hij : i ≠ j := fun he => by rw [he, hj] at h; cases h
          have hir : i ∈ rest := by
            cases List.mem_cons.mp hi with
            | inl he => exact absurd he hij
            | inr hr => exact hr
          obtain ⟨e, he⟩ := ih hir (max acc d)
          exact ⟨e, by simp [maxFoldClass, hj, he]⟩

/-- The predecessor loop (shared by both files) raises on any input
missing from the delay table. -/
theorem predFold_error_of_missing (delays : String → Option Int) (dn cd : Int)
    (l : List String) (i : String) (hi : i ∈ l) (h : delays i = none) :
    ∀ p0, ∃ e, predFold delays dn cd p0 l = .error e := by
  induction l with
  | nil => cases hi
  | cons j rest ih =>
      intro p0
      cases hj : delays j with
      | none => exact ⟨"KeyError: " ++ j, by simp [predFold, hj]⟩
      | some d =>
          have hij : i ≠ j := fun he => by rw [he, hj] at h; cases h
          have hir : i ∈ rest := by
            cases List.mem_cons.mp hi with
            | inl he => exact absurd he hij
            | inr hr => exact hr
          obtain ⟨e, he⟩ := ih hir (if dn = d + cd then some j else p0)
          exact ⟨e, by simp [predFold, hj, he]⟩

/-- C7: if a node with declared inputs is processed while some input's
arrival time is absent from the delay table, both implementations raise a
`KeyError` — the class version in its maximum-delay loop, the script
version in its (unguarded) predecessor loop; the missing contribution is
never silently treated as 0.  (The input must differ from the node itself:
a self-referencing input reads the arrival value the node was just
assigned, in both sources.) -/
theorem missing_input_delay_raises (c : Circuit) (st : PropState) (nid : String)
    (node : Node) (i : String) (hlook : lookupNode c nid = some node)
    (hi : i ∈ node.inputs) (hne : i ≠ nid) (hmiss : st.1 i = none) :
    (∃ e, stepClass c st nid = .error e) ∧ (∃ e, stepScript c st nid = .error e) := by
  constructor
  · obtain ⟨e, he⟩ := maxFoldClass_error_of_missing st.1 node.inputs i hi hmiss 0
    exact ⟨e, by simp [stepClass, hlook, he]⟩
  · have hmiss2 :
        (fun x => if x = nid then
            some (maxFoldScript st.1 0 node.inputs + delayOfType node.type)
          else st.1 x) i = none := by
      simp [hne, hmiss]
    obtain ⟨e, he⟩ := predFold_error_of_missing
      (fun x => if x = nid then
          some (maxFoldScript st.1 0 node.inputs + delayOfType node.type)
        else st.1 x)
      (maxFoldScript st.1 0 node.inputs + delayOfType node.type)
      (delayOfType node.type) node.inputs i hi hmiss2 (st.2 nid)
    exact ⟨e, by simp only [stepScript, hlook]; rw [he]⟩

/-- Witness for C7 at a concrete state: processing node `x` of the cyclic
graph with the initial tables, where input `y`'s arrival is absent. -/
theorem missing_input_delay_raises_witness :
    (∃ e, stepClass cyclicGraph (initDelays cyclicGraph, initPreds) "x" = .error e) ∧
    (∃ e, stepScript cyclicGraph (initDelays cyclicGraph, initPreds) "x" = .error e) :=
  missing_input_delay_raises cyclicGraph (initDelays cyclicGraph, initPreds) "x"
    ⟨"ADD", ["y"]⟩ "y" (by decide) (by decide) (by decide) (by decide)

/-! ## Extraction with no outputs (C9) -/

/-- C9: on any graph whose primary-output set is empty, the class
pipeline raises (either during propagation or, reaching the selection of
the slowest output, the empty-sequence `ValueError` of `max`) and returns
no critical path; the script pipeline catches the exception and returns
the empty fallback `([], 0, [])`. -/
theorem no_outputs_extraction_fails (c : Circuit) (h : c.outputs = []) :
    (∃ e, Circuit.find_critical_path c = .error e) ∧
    Script.find_critical_path c = ([], 0, []) := by
  constructor
  · cases hp : c.propagate with
    | error e => exact ⟨e, by simp [Circuit.find_critical_path, hp]⟩
    | ok st =>
        exact ⟨"max() arg is an empty sequence",
          by simp [Circuit.find_critical_path, hp, h, pickMax]⟩
  · cases hp : Script.propagate c with
    | error e => simp [Script.find_critical_path, Script.find_critical_path_core, hp]
    | ok st => simp [Script.find_critical_path, Script.find_critical_path_core, hp, h, pickMax]

/-- Witness for C9: the empty graph built from the empty declaration
sequence. -/
theorem no_outputs_extraction_fails_witness :
    (∃ e, Circuit.find_critical_path emptyCircuit = .error e) ∧
    Script.find_critical_path emptyCircuit = ([], 0, []) :=
  no_outputs_extraction_fails emptyCircuit (by decide)

/-! ## Association-list lookups -/

theorem mem_of_lookupIn {ns : List (String × Node)} {x : String} {n : Node}
    (h : lookupIn ns x = some n) : (x, n) ∈ ns := by
  unfold lookupIn at h
  obtain ⟨p, hf, hsnd⟩ := Option.map_eq_some'.mp h
  have hx : p.1 = x := by simpa using List.find?_some hf
  have hm : p ∈ ns := List.mem_of_find?_eq_some hf
  have : p = (x, n) := by
    cases p
    simp_all
  rwa [this] at hm

theorem lookupIn_of_mem {ns : List (String × Node)}
    (hnd : (ns.map Prod.fst).Nodup) {x : String} {n : Node}
    (h : (x, n) ∈ ns) : lookupIn ns x = some n := by
  induction ns with
  | nil => cases h
  | cons p rest ih =>
      rw [List.map_cons, List.nodup_cons] at hnd
      rcases List.mem_cons.mp h with he | hr
      · unfold lookupIn
        rw [← he]
        simp [List.find?]
      · by_cases hpx : p.1 = x
        · exfalso
          apply hnd.1
          rw [hpx]
          exact List.mem_map.mpr ⟨(x, n), hr, rfl⟩
        · unfold lookupIn
          rw [List.find?]
          have : (p.1 == x) = false := by simp [hpx]
          rw [this]
          exact ih hnd.2 hr

theorem lookupIn_eq_none {ns : List (String × Node)} {x : String} :
    lookupIn ns x = none ↔ x ∉ ns.map Prod.fst := by
  unfold lookupIn
  rw [Option.map_eq_none', List.find?_eq_none]
  constructor
  · intro h hmem
    obtain ⟨p, hp, hpx⟩ := List.mem_map.mp hmem
    exact h p hp (by simp [hpx])
  · intro h p hp hpx
    exact h (List.mem_map.mpr ⟨p, hp, by simpa using hpx⟩)

theorem lookupNode_mem_keys {c : Circuit} {x : String} :
    x ∈ keys c ↔ ∃ n, lookupNode c x = some n := by
  constructor
  · intro hx
    cases hl : lookupNode c x with
    | none => exact absurd (lookupIn_eq_none.mp hl) (by simpa [keys] using hx)
    | some n => exact ⟨n, rfl⟩
  · rintro ⟨n, hn⟩
    have := mem_of_lookupIn hn
    exact List.mem_map.mpr ⟨(x, n), this, rfl⟩

theorem inputsOf_lookup {c : Circuit} {x : String} {n : Node}
    (h : lookupNode c x = some n) : inputsOf c x = n.inputs := by
  simp [inputsOf, h]

theorem inputsOf_of_not_key {c : Circuit} {x : String} (h : x ∉ keys c) :
    inputsOf c x = [] := by
  have : lookupNode c x = none := lookupIn_eq_none.mpr (by simpa [keys] using h)
  simp [inputsOf, this]

/-! ## Counting the derived adjacency -/

theorem count_map_const {α : Type} (l : List α) (a y : String) :
    ((l.map (fun _ => a)).count y) = if a = y then l.length else 0 := by
  induction l with
  | nil => simp
  | cons b t ih =>
      simp only [List.map_cons, List.count_cons, ih]
      by_cases h : a = y <;> simp [h]

theorem count_outsFor (cur y : String) (p : String × Node) :
    (outsFor cur p).count y =
      if p.1 = y then p.2.inputs.count cur else 0 := by
  unfold outsFor
  rw [count_map_const]
  have : (p.2.inputs.filter (fun i => i == cur)).length = p.2.inputs.count cur := by
    rw [← List.countP_eq_length_filter]
    rfl
  rw [this]

theorem count_flatMap_outsFor_of_not_mem (cur y : String) :
    ∀ (ns : List (String × Node)), y ∉ ns.map Prod.fst →
      (ns.flatMap (outsFor cur)).count y = 0 := by
  intro ns
  induction ns with
  | nil => simp
  | cons p rest ih =>
      intro hy
      rw [List.map_cons, List.mem_cons] at hy
      push_neg at hy
      rw [List.flatMap_cons, List.count_append, count_outsFor]
      rw [if_neg (fun h => hy.1 h.symm), ih hy.2]

theorem count_flatMap_outsFor (cur y : String) :
    ∀ (ns : List (String × Node)), (ns.map Prod.fst).Nodup →
      (ns.flatMap (outsFor cur)).count y =
        (((lookupIn ns y).map Node.inputs).getD []).count cur := by
  intro ns
  induction ns with
  | nil => simp [lookupIn]
  | cons p rest ih =>
      intro hnd
      rw [List.map_cons, List.nodup_cons] at hnd
      rw [List.flatMap_cons, List.count_append, count_outsFor]
      by_cases hpy : p.1 = y
      · have hlook : lookupIn (p :: rest) y = some p.2 := by
          unfold lookupIn
          rw [List.find?]
          simp [hpy]
        rw [hlook, if_pos hpy,
          count_flatMap_outsFor_of_not_mem cur y rest (by rw [← hpy]; exact hnd.1)]
        simp
      · have hlook : lookupIn (p :: rest) y = lookupIn rest y := by
          unfold lookupIn
          rw [List.find?]
          have : (p.1 == y) = false := by simp [hpy]
          rw [this]
        rw [hlook, if_neg hpy, ih hnd.2]
        simp

theorem count_outputsOf {c : Circuit} (hnd : (keys c).Nodup) (cur y : String) :
    (outputsOf c cur).count y = (inputsOf c y).count cur := by
  unfold outputsOf inputsOf lookupNode
  exact count_flatMap_outsFor cur y c.nodes hnd

/-! ## The inner decrement loop of the topological sort -/

theorem processOuts_cons (deg : String → Int) (queue : List String) (nb : String)
    (rest : List String) :
    processOuts deg queue (nb :: rest) =
      processOuts (fun x => if x = nb then deg x - 1 else deg x)
        (if deg nb - 1 = 0 then queue ++ [nb] else queue) rest := by
  simp [processOuts]

theorem processOuts_deg (ns : List String) :
    ∀ (deg : String → Int) (queue : List String),
      (processOuts deg queue ns).1 = fun x => deg x - (ns.count x : Int) := by
  induction ns with
  | nil => intro deg queue; funext x; simp [processOuts]
  | cons nb rest ih =>
      intro deg queue
      rw [processOuts_cons, ih]
      funext x
      rw [List.count_cons]
      by_cases hx : x = nb
      · subst hx
        simp only [if_pos rfl, beq_self_eq_true, if_true]
        push_cast
        ring
      · have hne : (nb == x) = false := by
          simp only [beq_eq_false_iff_ne, ne_eq]
          intro h
          exact hx h.symm
        simp only [if_neg hx, hne, if_false]
        push_cast
        ring

theorem processOuts_queue_mem (ns : List String) :
    ∀ (deg : String → Int) (queue : List String) (x : String),
      x ∈ (processOuts deg queue ns).2 ↔
        x ∈ queue ∨ (1 ≤ deg x ∧ deg x ≤ (ns.count x : Int)) := by
  induction ns with
  | nil =>
      intro deg queue x
      simp only [processOuts, List.count_nil, Nat.cast_zero]
      constructor
      · exact fun h => Or.inl h
      · rintro (h | ⟨h1, h2⟩)
        · exact h
        · omega
  | cons nb rest ih =>
      intro deg queue x
      rw [processOuts_cons, ih]
      rw [List.count_cons]
      by_cases hx : x = nb
      · subst hx
        simp only [if_pos rfl, beq_self_eq_true, if_true]
        by_cases hz : deg x - 1 = 0
        · rw [if_pos hz]
          rw [List.mem_append, List.mem_singleton]
          push_cast
          constructor
          · rintro ((hq | he) | ⟨h1, h2⟩)
            · exact Or.inl hq
            · right; omega
            · right; omega
          · rintro (hq | ⟨h1, h2⟩)
            · exact Or.inl (Or.inl hq)
            · exact Or.inl (Or.inr rfl)
        · rw [if_neg hz]
          push_cast
          constructor
          · rintro (hq | ⟨h1, h2⟩)
            · exact Or.inl hq
            · right; omega
          · rintro (hq | ⟨h1, h2⟩)
            · exact Or.inl hq
            · right; omega
      · have hne : (nb == x) = false := by
          simp only [beq_eq_false_iff_ne, ne_eq]
          intro h
          exact hx h.symm
        rw [hne]
        simp only [if_neg hx, if_false, Nat.add_zero]
        by_cases hz : deg nb - 1 = 0
        · rw [if_pos hz, List.mem_append, List.mem_singleton]
          constructor
          · rintro ((hq | he) | hrest)
            · exact Or.inl hq
            · exact absurd he hx
            · exact Or.inr hrest
          · rintro (hq | hrest)
            · exact Or.inl (Or.inl hq)
            · exact Or.inr hrest
        · rw [if_neg hz]
          simp

theorem processOuts_queue_shape (ns : List String) :
    ∀ (deg : String → Int) (queue : List String),
      ∃ extra, (processOuts deg queue ns).2 = queue ++ extra ∧ extra.Nodup ∧
        ∀ x ∈ extra, 1 ≤ deg x ∧ deg x ≤ (ns.count x : Int) := by
  induction ns with
  | nil =>
      intro deg queue
      exact ⟨[], by simp [processOuts], List.nodup_nil, by simp⟩
  | cons nb rest ih =>
      intro deg queue
      rw [processOuts_cons]
      by_cases hz : deg nb - 1 = 0
      · rw [if_pos hz]
        obtain ⟨extra, heq, hnd, hmem⟩ :=
          ih (fun x => if x = nb then deg x - 1 else deg x) (queue ++ [nb])
        refine ⟨nb :: extra, by rw [heq]; simp, ?_, ?_⟩
        · rw [List.nodup_cons]
          refine ⟨fun hmemnb => ?_, hnd⟩
          obtain ⟨h1, h2⟩ := hmem nb hmemnb
          rw [if_pos rfl] at h1
          omega
        · intro x hx
          rcases List.mem_cons.mp hx with rfl | hxe
          · rw [List.count_cons]
            simp only [beq_self_eq_true, if_true]
            push_cast
            omega
          · obtain ⟨h1, h2⟩ := hmem x hxe
            by_cases hxnb : x = nb
            · subst hxnb
              rw [if_pos rfl] at h1 h2
              rw [List.count_cons]
              simp only [beq_self_eq_true, if_true]
              push_cast
              omega
            · rw [if_neg hxnb] at h1 h2
              have hne : (nb == x) = false := by
                simp only [beq_eq_false_iff_ne, ne_eq]
                intro h
                exact hxnb h.symm
              rw [List.count_cons, hne]
              simp only [Bool.false_eq_true, if_false]
              push_cast
              omega
      · rw [if_neg hz]
        obtain ⟨extra, heq, hnd, hmem⟩ :=
          ih (fun x => if x = nb then deg x - 1 else deg x) queue
        refine ⟨extra, heq, hnd, ?_⟩
        intro x hx
        obtain ⟨h1, h2⟩ := hmem x hx
        by_cases hxnb : x = nb
        · subst hxnb
          rw [if_pos rfl] at h1 h2
          rw [List.count_cons]
          simp only [beq_self_eq_true, if_true]
          push_cast
          omega
        · rw [if_neg hxnb] at h1 h2
          have hne : (nb == x) = false := by
            simp only [beq_eq_false_iff_ne, ne_eq]
            intro h
            exact hxnb h.symm
          rw [List.count_cons, hne]
          simp only [Bool.false_eq_true, if_false]
          push_cast
          omega

/-! ## Kahn loop invariant preservation -/

theorem nodup_length_le {l k : List String} (hl : l.Nodup) (hk : k.Nodup)
    (hsub : ∀ x ∈ l, x ∈ k) : l.length ≤ k.length := by
  have h1 : l.toFinset ⊆ k.toFinset := fun x hx =>
    List.mem_toFinset.mpr (hsub x (List.mem_toFinset.mp hx))
  have := Finset.card_le_card h1
  rwa [List.toFinset_card_of_nodup hl, List.toFinset_card_of_nodup hk] at this

theorem mem_of_nodup_length_ge {l k : List String} (hl : l.Nodup) (hk : k.Nodup)
    (hsub : ∀ x ∈ l, x ∈ k) (hlen : k.length ≤ l.length) : ∀ x ∈ k, x ∈ l := by
  have h1 : l.toFinset ⊆ k.toFinset := fun x hx =>
    List.mem_toFinset.mpr (hsub x (List.mem_toFinset.mp hx))
  have hcard : k.toFinset.card ≤ l.toFinset.card := by
    rwa [List.toFinset_card_of_nodup hl, List.toFinset_card_of_nodup hk]
  have heq := Finset.eq_of_subset_of_card_le h1 hcard
  intro x hx
  have : x ∈ k.toFinset := List.mem_toFinset.mpr hx
  rw [← heq] at this
  exact List.mem_toFinset.mp this

theorem sorted_inputs_in_sorted {c : Circuit} {deg : String → Int}
    {queue sorted : List String} (inv : KahnInv c deg queue sorted)
    {x : String} (hx : x ∈ sorted) : ∀ i ∈ inputsOf c x, i ∈ sorted := by
  obtain ⟨s, t, hst⟩ := List.append_of_mem hx
  intro i hi
  have := inv.sortedOrd s x t hst i hi
  rw [hst]
  exact List.mem_append.mpr (Or.inl this)

theorem deg_zero_of_inputs_sorted {c : Circuit} {deg : String → Int}
    {queue sorted : List String} (inv : KahnInv c deg queue sorted)
    {x : String} (hx : x ∈ keys c) (hall : ∀ i ∈ inputsOf c x, i ∈ sorted) :
    deg x = 0 := by
  rw [inv.degEq x hx]
  have : (inputsOf c x).filter (fun i => !(sorted.contains i)) = [] := by
    rw [List.filter_eq_nil_iff]
    intro i hi
    simp only [Bool.not_eq_true, Bool.not_eq_true']
    simpa using hall i hi
  rw [this]
  rfl

theorem deg_nonneg_of_key {c : Circuit} {deg : String → Int}
    {queue sorted : List String} (inv : KahnInv c deg queue sorted)
    {x : String} (hx : x ∈ keys c) : 0 ≤ deg x := by
  rw [inv.degEq x hx]
  positivity

theorem pos_deg_untouched {c : Circuit} {deg : String → Int}
    {queue sorted : List String} (inv : KahnInv c deg queue sorted)
    {x : String} (hpos : 1 ≤ deg x) : x ∈ keys c ∧ x ∉ sorted ∧ x ∉ queue := by
  have hkey : x ∈ keys c := by
    by_contra hk
    have := inv.degNonKey x hk
    omega
  refine ⟨hkey, fun hs => ?_, fun hq => ?_⟩
  · have := deg_zero_of_inputs_sorted inv hkey (sorted_inputs_in_sorted inv hs)
    omega
  · have := deg_zero_of_inputs_sorted inv hkey (inv.queueDone x hq)
    omega

theorem filter_not_contains_append_one (l : List String) (sorted : List String)
    (current : String) (hc : current ∉ sorted) :
    (l.filter (fun i => !((sorted ++ [current]).contains i))).length + l.count current
      = (l.filter (fun i => !(sorted.contains i))).length := by
  induction l with
  | nil => simp
  | cons a t ih =>
      rw [List.count_cons]
      by_cases hac : a = current
      · subst hac
        have h1 : (!((sorted ++ [a]).contains a)) = false := by simp
        have h2 : (!(sorted.contains a)) = true := by simpa using hc
        rw [List.filter_cons, List.filter_cons, h1, h2]
        simp only [beq_self_eq_true, Bool.false_eq_true, if_false, if_true, List.length_cons]
        omega
      · have hne : (a == current) = false := by
          simp only [beq_eq_false_iff_ne, ne_eq]
          exact hac
        rw [hne, List.filter_cons, List.filter_cons]
        by_cases has : a ∈ sorted
        · have h1 : (!((sorted ++ [current]).contains a)) = false := by simp [has]
          have h2 : (!(sorted.contains a)) = false := by simpa using has
          rw [h1, h2]
          simp only [Bool.false_eq_true, if_false]
          omega
        · have h1 : (!((sorted ++ [current]).contains a)) = true := by
            simp [has, hac]
          have h2 : (!(sorted.contains a)) = true := by simpa using has
          rw [h1, h2]
          simp only [if_true, Bool.false_eq_true, if_false, List.length_cons]
          omega

theorem kahnInv_step {c : Circuit} (hnd : (keys c).Nodup)
    {deg : String → Int} {sorted : List String} {current : String} {rest : List String}
    (inv : KahnInv c deg (current :: rest) sorted) :
    KahnInv c (processOuts deg rest (outputsOf c current)).1
      (processOuts deg rest (outputsOf c current)).2 (sorted ++ [current]) := by
  have hcount : ∀ y, (outputsOf c current).count y = (inputsOf c y).count current :=
    fun y => count_outputsOf hnd current y
  have hdeg : (processOuts deg rest (outputsOf c current)).1 =
      fun x => deg x - ((outputsOf c current).count x : Int) :=
    processOuts_deg (outputsOf c current) deg rest
  obtain ⟨extra, hq, hxnd, hxmem⟩ :=
    processOuts_queue_shape (outputsOf c current) deg rest
  have hcur_key : current ∈ keys c := inv.sub current (by simp)
  have hcur_not_sorted : current ∉ sorted := by
    intro hs
    have := inv.nodup
    rw [List.nodup_append] at this
    exact this.2.2 hs (by simp)
  have hextra_untouched : ∀ x ∈ extra, x ∈ keys c ∧ x ∉ sorted ∧ x ∉ current :: rest :=
    fun x hx => pos_deg_untouched inv (hxmem x hx).1
  have hreassoc : sorted ++ current :: rest = (sorted ++ [current]) ++ rest := by
    rw [List.append_assoc, List.singleton_append]
  have hdegEq2 : ∀ k ∈ keys c,
      (processOuts deg rest (outputsOf c current)).1 k =
        (((inputsOf c k).filter (fun i => !((sorted ++ [current]).contains i))).length : Int) := by
    intro k hk
    simp only [hdeg]
    have hfil := filter_not_contains_append_one (inputsOf c k) sorted current hcur_not_sorted
    have hold := inv.degEq k hk
    rw [hcount k]
    omega
  refine ⟨?_, ?_, hdegEq2, ?_, ?_, ?_, ?_⟩
  · -- nodup
    rw [hq]
    have base : ((sorted ++ [current]) ++ rest).Nodup := by
      rw [← hreassoc]
      exact inv.nodup
    have : (((sorted ++ [current]) ++ rest) ++ extra).Nodup := by
      rw [List.nodup_append]
      refine ⟨base, hxnd, ?_⟩
      intro a ha hae
      obtain ⟨hk, hns, hnq⟩ := hextra_untouched a hae
      rcases List.mem_append.mp ha with h1 | h2
      · rcases List.mem_append.mp h1 with h3 | h4
        · exact hns h3
        · exact hnq (by simp only [List.mem_singleton] at h4; simp [h4])
      · exact hnq (List.mem_cons.mpr (Or.inr h2))
    rw [List.append_assoc] at this
    exact this
  · -- sub
    rw [hq]
    intro x hx
    rcases List.mem_append.mp hx with h1 | h2
    · rcases List.mem_append.mp h1 with h3 | h4
      · exact inv.sub x (List.mem_append.mpr (Or.inl h3))
      · simp only [List.mem_singleton] at h4
        rw [h4]
        exact hcur_key
    · rcases List.mem_append.mp h2 with h3 | h4
      · exact inv.sub x (List.mem_append.mpr (Or.inr (List.mem_cons.mpr (Or.inr h3))))
      · exact (hextra_untouched x h4).1
  · -- degNonKey
    intro k hk
    simp only [hdeg]
    have := inv.degNonKey k hk
    have hc : (0 : Int) ≤ ((outputsOf c current).count k : Int) := by positivity
    omega
  · -- sortedOrd
    intro s1 n s2 hsplit i hi
    rcases List.eq_nil_or_concat s2 with h2 | ⟨L, b, hLb⟩
    · subst h2
      have : s1 ++ [n] = sorted ++ [current] := hsplit.symm
      obtain ⟨hs1, hn⟩ := List.append_inj' this (by simp)
      have hn2 : n = current := by simpa using hn
      rw [hs1]
      have := inv.queueDone current (by simp) i
      rw [← hn2] at this
      exact this hi
    · rw [hLb, List.concat_eq_append] at hsplit
      have hre : sorted ++ [current] = (s1 ++ n :: L) ++ [b] := by
        rw [hsplit]
        simp
      obtain ⟨hs1, hb⟩ := List.append_inj' hre.symm (by simp)
      exact inv.sortedOrd s1 n L hs1.symm i hi
  · -- queueDone
    rw [hq]
    intro q hqmem2 i hi
    rcases List.mem_append.mp hqmem2 with h1 | h2
    · exact List.mem_append.mpr
        (Or.inl (inv.queueDone q (List.mem_cons.mpr (Or.inr h1)) i hi))
    · -- q ∈ extra: its new degree is 0, so all inputs are in sorted ++ [current]
      obtain ⟨hb1, hb2⟩ := hxmem q h2
      obtain ⟨hqk, _, _⟩ := hextra_untouched q h2
      have hzero :
          (((inputsOf c q).filter (fun i => !((sorted ++ [current]).contains i))).length : Int)
            = 0 := by
        have := hdegEq2 q hqk
        simp only [hdeg] at this
        omega
      have hnil : (inputsOf c q).filter (fun i => !((sorted ++ [current]).contains i)) = [] := by
        rw [← List.length_eq_zero]
        exact_mod_cast hzero
      rw [List.filter_eq_nil_iff] at hnil
      have h3 := hnil i hi
      have h4 : i ∉ sorted → i = current := by simpa using h3
      rw [List.mem_append, List.mem_singleton]
      by_cases his : i ∈ sorted
      · exact Or.inl his
      · exact Or.inr (h4 his)
  · -- untouchedPos
    intro k hk hks hkq
    rw [hq] at hkq
    have hkns : k ∉ sorted := fun h => hks (List.mem_append.mpr (Or.inl h))
    have hknc : k ≠ current := fun h => hks (List.mem_append.mpr (Or.inr (by simp [h])))
    have hknr : k ∉ rest := fun h => hkq (List.mem_append.mpr (Or.inl h))
    have hkne : k ∉ extra := fun h => hkq (List.mem_append.mpr (Or.inr h))
    have hold : deg k ≠ 0 :=
      inv.untouchedPos k hk hkns (fun h => by
        rcases List.mem_cons.mp h with h1 | h2
        · exact hknc h1
        · exact hknr h2)
    have hnonneg : 0 ≤ deg k := deg_nonneg_of_key inv hk
    have hnb : ¬(1 ≤ deg k ∧ deg k ≤ ((outputsOf c current).count k : Int)) := by
      intro hb
      exact hkne (by
        have hmem := (processOuts_queue_mem (outputsOf c current) deg rest k).mpr (Or.inr hb)
        rw [hq] at hmem
        rcases List.mem_append.mp hmem with h1 | h2
        · exact absurd h1 hknr
        · exact h2)
    simp only [hdeg]
    omega

theorem kahnLoop_spec (c : Circuit) (hnd : (keys c).Nodup) :
    ∀ (fuel : Nat) (deg : String → Int) (queue sorted : List String),
      KahnInv c deg queue sorted →
      (keys c).length ≤ fuel + sorted.length →
      (kahnLoop c fuel deg queue sorted).Nodup ∧
      (∀ x ∈ kahnLoop c fuel deg queue sorted, x ∈ keys c) ∧
      OrderRespects c (kahnLoop c fuel deg queue sorted) ∧
      (∀ k ∈ keys c, k ∉ kahnLoop c fuel deg queue sorted →
        ∃ i ∈ inputsOf c k, i ∉ kahnLoop c fuel deg queue sorted) := by
  intro fuel
  induction fuel with
  | zero =>
      intro deg queue sorted inv hlen
      simp only [kahnLoop]
      have hnodup : sorted.Nodup := (List.nodup_append.mp inv.nodup).1
      have hsub : ∀ x ∈ sorted, x ∈ keys c :=
        fun x hx => inv.sub x (List.mem_append.mpr (Or.inl hx))
      refine ⟨hnodup, hsub, inv.sortedOrd, ?_⟩
      intro k hk hks
      exact absurd
        (mem_of_nodup_length_ge hnodup hnd hsub (by omega) k hk) hks
  | succ fuel ih =>
      intro deg queue sorted inv hlen
      match queue with
      | [] =>
          simp only [kahnLoop]
          have hnodup : sorted.Nodup := (List.nodup_append.mp inv.nodup).1
          have hsub : ∀ x ∈ sorted, x ∈ keys c :=
            fun x hx => inv.sub x (List.mem_append.mpr (Or.inl hx))
          refine ⟨hnodup, hsub, inv.sortedOrd, ?_⟩
          intro k hk hks
          have hdegk : deg k ≠ 0 := inv.untouchedPos k hk hks (by simp)
          rw [inv.degEq k hk] at hdegk
          have hfil : (inputsOf c k).filter (fun i => !(sorted.contains i)) ≠ [] := by
            intro hn
            rw [hn] at hdegk
            simp at hdegk
          obtain ⟨i, hif⟩ := List.exists_mem_of_ne_nil _ hfil
          have := List.mem_filter.mp hif
          refine ⟨i, this.1, ?_⟩
          have h2 := this.2
          simp only [Bool.not_eq_true, Bool.not_eq_true'] at h2
          simpa using h2
      | current :: rest =>
          have hstep :
              kahnLoop c (fuel + 1) deg (current :: rest) sorted =
                kahnLoop c fuel (processOuts deg rest (outputsOf c current)).1
                  (processOuts deg rest (outputsOf c current)).2 (sorted ++ [current]) := by
            simp only [kahnLoop]
          rw [hstep]
          exact ih _ _ _ (kahnInv_step hnd inv)
            (by rw [List.length_append, List.length_singleton]; omega)

theorem topological_sort_spec (c : Circuit) (hnd : (keys c).Nodup) :
    (c.topological_sort).Nodup ∧ (∀ x ∈ c.topological_sort, x ∈ keys c) ∧
    OrderRespects c c.topological_sort ∧
    (∀ k ∈ keys c, k ∉ c.topological_sort →
      ∃ i ∈ inputsOf c k, i ∉ c.topological_sort) := by
  have hq0 : ∀ x, x ∈ (c.nodes.filter (fun p => p.2.inputs.length == 0)).map Prod.fst ↔
      ∃ n, (x, n) ∈ c.nodes ∧ n.inputs = [] := by
    intro x
    constructor
    · intro hx
      obtain ⟨p, hp, hfst⟩ := List.mem_map.mp hx
      have := List.mem_filter.mp hp
      refine ⟨p.2, ?_, ?_⟩
      · rw [← hfst]
        exact this.1
      · have h2 := this.2
        simp only [beq_iff_eq] at h2
        exact List.length_eq_zero.mp h2
    · rintro ⟨n, hmem, hnil⟩
      exact List.mem_map.mpr ⟨(x, n),
        List.mem_filter.mpr ⟨hmem, by simp [hnil]⟩, rfl⟩
  have hinv : KahnInv c
      (fun x => match lookupNode c x with
        | some n => (n.inputs.length : Int)
        | none => 0)
      ((c.nodes.filter (fun p => p.2.inputs.length == 0)).map Prod.fst) [] := by
    refine ⟨?_, ?_, ?_, ?_, ?_, ?_, ?_⟩
    · rw [List.nil_append]
      exact ((List.filter_sublist _).map Prod.fst).nodup hnd
    · intro x hx
      rw [List.nil_append] at hx
      obtain ⟨n, hmem, _⟩ := (hq0 x).mp hx
      exact List.mem_map.mpr ⟨(x, n), hmem, rfl⟩
    · intro k hk
      obtain ⟨n, hn⟩ := lookupNode_mem_keys.mp hk
      rw [hn, inputsOf_lookup hn]
      simp
    · intro k hk
      have : lookupNode c k = none :=
        lookupIn_eq_none.mpr (by simpa [keys] using hk)
      rw [this]
    · intro s1 n s2 hsplit
      exact absurd hsplit.symm (by simp)
    · intro q hq i hi
      obtain ⟨n, hmem, hnil⟩ := (hq0 q).mp hq
      rw [inputsOf_lookup (lookupIn_of_mem hnd hmem), hnil] at hi
      cases hi
    · intro k hk hks hkq
      obtain ⟨n, hn⟩ := lookupNode_mem_keys.mp hk
      rw [hn]
      intro hzero
      have hzero2 : (n.inputs.length : Int) = 0 := hzero
      have hnil : n.inputs = [] := by
        rw [← List.length_eq_zero]
        exact_mod_cast hzero2
      exact hkq ((hq0 k).mpr ⟨n, mem_of_lookupIn hn, hnil⟩)
  have := kahnLoop_spec c hnd c.nodes.length _ _ [] hinv
    (by simp [keys])
  exact this

theorem topological_sort_complete (c : Circuit) (h : Valid c) :
    ∀ k ∈ keys c, k ∈ c.topological_sort := by
  obtain ⟨rank, hrank⟩ := h.acyclic
  have spec := topological_sort_spec c h.nodup
  suffices hs : ∀ n k, k ∈ keys c → rank k < n → k ∈ c.topological_sort by
    intro k hk
    exact hs (rank k + 1) k hk (by omega)
  intro n
  induction n with
  | zero => intro k _ hr; omega
  | succ n ihn =>
      intro k hk hr
      by_contra hkn
      obtain ⟨i, hi_mem, hi_not⟩ := spec.2.2.2 k hk hkn
      obtain ⟨node, hnode⟩ := lookupNode_mem_keys.mp hk
      have hmem : (k, node) ∈ c.nodes := mem_of_lookupIn hnode
      have hi_inputs : i ∈ node.inputs := by
        rwa [inputsOf_lookup hnode] at hi_mem
      have hik : i ∈ keys c := h.closed (k, node) hmem i hi_inputs
      have hrlt : rank i < rank k := hrank (k, node) hmem i hi_inputs
      exact hi_not (ihn i hik (by omega))

/-- C6: on a valid acyclic graph the topological sort covers every node
exactly once — its length equals the node count — and lists every node
after all of its declared inputs. -/
theorem topological_sort_correct (c : Circuit) (h : Valid c) :
    (c.topological_sort).length = c.nodes.length ∧
    (∀ k ∈ keys c, (c.topological_sort).count k = 1) ∧
    OrderRespects c c.topological_sort := by
  have spec := topological_sort_spec c h.nodup
  have hcompl := topological_sort_complete c h
  have hlen : (c.topological_sort).length = (keys c).length :=
    le_antisymm (nodup_length_le spec.1 h.nodup spec.2.1)
      (nodup_length_le h.nodup spec.1 hcompl)
  refine ⟨by rw [hlen]; simp [keys], ?_, spec.2.2.1⟩
  exact fun k hk => List.count_eq_one_of_mem spec.1 (hcompl k hk)

/-- Witness for C6 on the scenario graph. -/
theorem topological_sort_correct_witness :
    (circuit1Graph.topological_sort).length = circuit1Graph.nodes.length ∧
    (∀ k ∈ keys circuit1Graph, (circuit1Graph.topological_sort).count k = 1) ∧
    OrderRespects circuit1Graph circuit1Graph.topological_sort :=
  topological_sort_correct circuit1Graph
    ⟨by decide, by decide, ⟨circuit1Rank, by decide⟩, by decide, by decide⟩

/-! ## Delay propagation: the fold lemmas -/

theorem maxFoldClass_ok (delays : String → Option Int) (l : List String)
    (hall : ∀ i ∈ l, ∃ v, delays i = some v) :
    ∀ acc, ∃ m, maxFoldClass delays acc l = .ok m ∧ acc ≤ m ∧
      (∀ i ∈ l, ∃ v, delays i = some v ∧ v ≤ m) ∧
      (m = acc ∨ ∃ i ∈ l, delays i = some m) := by
  induction l with
  | nil =>
      intro acc
      exact ⟨acc, rfl, le_refl acc, by simp, Or.inl rfl⟩
  | cons j rest ih =>
      intro acc
      obtain ⟨v, hv⟩ := hall j (by simp)
      obtain ⟨m, hm, hle, hbound, hatt⟩ :=
        ih (fun i hi => hall i (List.mem_cons.mpr (Or.inr hi))) (max acc v)
      refine ⟨m, ?_, ?_, ?_, ?_⟩
      · simp [maxFoldClass, hv, hm]
      · exact le_trans (le_max_left acc v) hle
      · intro i hi
        rcases List.mem_cons.mp hi with rfl | hir
        · exact ⟨v, hv, le_trans (le_max_right acc v) hle⟩
        · exact hbound i hir
      · rcases hatt with heq | ⟨i, hir, hi⟩
        · rcases max_choice acc v with hmc | hmc
          · exact Or.inl (by rw [heq, hmc])
          · refine Or.inr ⟨j, by simp, ?_⟩
            rw [heq, hmc]
            exact hv
        · exact Or.inr ⟨i, List.mem_cons.mpr (Or.inr hir), hi⟩

theorem maxFoldClass_isMax (delays : String → Option Int) (l : List String)
    (hall : ∀ i ∈ l, ∃ v, delays i = some v ∧ 0 ≤ v) :
    ∃ m, maxFoldClass delays 0 l = .ok m ∧ IsMaxArrival delays l m ∧ 0 ≤ m := by
  obtain ⟨m, hm, hle, hbound, hatt⟩ :=
    maxFoldClass_ok delays l (fun i hi => ⟨(hall i hi).choose, (hall i hi).choose_spec.1⟩) 0
  refine ⟨m, hm, ⟨?_, hbound, ?_⟩, hle⟩
  · intro hnil
    subst hnil
    rcases hatt with heq | ⟨i, hi, _⟩
    · exact heq
    · cases hi
  · intro hne
    rcases hatt with heq | hatt2
    · obtain ⟨j, hj⟩ := List.exists_mem_of_ne_nil l hne
      obtain ⟨v, hv, hvnn⟩ := hall j hj
      obtain ⟨v2, hv2, hvle⟩ := hbound j hj
      rw [hv] at hv2
      have : v = v2 := by injection hv2
      refine ⟨j, hj, ?_⟩
      rw [hv]
      have : v = m := by omega
      rw [this]
    · exact hatt2

theorem maxFoldScript_eq_class (delays : String → Option Int) (l : List String)
    (hall : ∀ i ∈ l, ∃ v, delays i = some v) :
    ∀ acc, maxFoldClass delays acc l = .ok (maxFoldScript delays acc l) := by
  induction l with
  | nil => intro acc; rfl
  | cons j rest ih =>
      intro acc
      obtain ⟨v, hv⟩ := hall j (by simp)
      rw [maxFoldClass, maxFoldScript, hv]
      exact ih (fun i hi => hall i (List.mem_cons.mpr (Or.inr hi))) (max acc v)

theorem getLast?_cons_match {α : Type} (a : α) (l : List α) :
    (a :: l).getLast? =
      match l.getLast? with
      | some x => some x
      | none => some a := by
  cases l with
  | nil => rfl
  | cons b t =>
      rw [List.getLast?_cons_cons]
      have hne : (b :: t) ≠ [] := by simp
      have hsome := List.getLast?_isSome.mpr hne
      obtain ⟨x, hx⟩ := Option.isSome_iff_exists.mp hsome
      rw [hx]

theorem predFold_ok (delays : String → Option Int) (dn cd : Int) (l : List String)
    (hall : ∀ i ∈ l, ∃ v, delays i = some v) :
    ∀ p0, predFold delays dn cd p0 l =
      .ok (match (tieMatches delays dn cd l).getLast? with
           | some x => some x
           | none => p0) := by
  induction l with
  | nil => intro p0; rfl
  | cons i rest ih =>
      intro p0
      obtain ⟨v, hv⟩ := hall i (by simp)
      rw [predFold, hv]
      show predFold delays dn cd (if dn = v + cd then some i else p0) rest = _
      rw [ih (fun j hj => hall j (List.mem_cons.mpr (Or.inr hj)))]
      have htm : tieMatches delays dn cd (i :: rest) =
          if dn = v + cd then i :: tieMatches delays dn cd rest
          else tieMatches delays dn cd rest := by
        unfold tieMatches
        rw [List.filter_cons, hv]
        by_cases hc : dn = v + cd
        · simp [hc]
        · simp [hc]
      rw [htm]
      by_cases hc : dn = v + cd
      · rw [if_pos hc, if_pos hc, getLast?_cons_match]
        cases (tieMatches delays dn cd rest).getLast? with
        | none => rfl
        | some x => rfl
      · rw [if_neg hc, if_neg hc]

theorem IsMaxArrival_congr {tbl1 tbl2 : String → Option Int} {l : List String}
    (hagree : ∀ i ∈ l, tbl2 i = tbl1 i) {m : Int}
    (h : IsMaxArrival tbl1 l m) : IsMaxArrival tbl2 l m := by
  obtain ⟨h1, h2, h3⟩ := h
  refine ⟨h1, ?_, ?_⟩
  · intro i hi
    obtain ⟨v, hv, hle⟩ := h2 i hi
    exact ⟨v, by rw [hagree i hi]; exact hv, hle⟩
  · intro hne
    obtain ⟨i, hi, hv⟩ := h3 hne
    exact ⟨i, hi, by rw [hagree i hi]; exact hv⟩

theorem tieMatches_congr {tbl1 tbl2 : String → Option Int} {l : List String}
    (hagree : ∀ i ∈ l, tbl2 i = tbl1 i) (dn cd : Int) :
    tieMatches tbl2 dn cd l = tieMatches tbl1 dn cd l := by
  unfold tieMatches
  induction l with
  | nil => rfl
  | cons i rest ih =>
      rw [List.filter_cons, List.filter_cons, hagree i (by simp),
        ih (fun j hj => hagree j (List.mem_cons.mpr (Or.inr hj)))]

theorem delayOfType_pos (t : String) : 0 < delayOfType t := by
  unfold delayOfType component_delays
  split_ifs <;> simp

theorem stepBoth_ok (c : Circuit) {st : PropState} {nid : String} {node : Node}
    (hnode : lookupNode c nid = some node)
    (hself : nid ∉ node.inputs)
    (hall : ∀ i ∈ node.inputs, ∃ v, st.1 i = some v ∧ 0 ≤ v) :
    ∃ m, IsMaxArrival st.1 node.inputs m ∧ 0 ≤ m ∧
      stepClass c st nid = .ok
        (fun x => if x = nid then some (m + delayOfType node.type) else st.1 x,
         fun x => if x = nid then
             (match (tieMatches
                 (fun y => if y = nid then some (m + delayOfType node.type) else st.1 y)
                 (m + delayOfType node.type) (delayOfType node.type) node.inputs).getLast? with
              | some y => some y
              | none => st.2 nid)
           else st.2 x) ∧
      stepScript c st nid = stepClass c st nid := by
  obtain ⟨m, hmf, hmax, hmnn⟩ := maxFoldClass_isMax st.1 node.inputs hall
  have hall2 : ∀ i ∈ node.inputs, ∃ v,
      (fun y => if y = nid then some (m + delayOfType node.type) else st.1 y) i = some v := by
    intro i hi
    obtain ⟨v, hv, _⟩ := hall i hi
    have hine : ¬ i = nid := fun h => hself (h ▸ hi)
    exact ⟨v, by simp only [hine, if_false]; exact hv⟩
  have hpredf := predFold_ok
    (fun y => if y = nid then some (m + delayOfType node.type) else st.1 y)
    (m + delayOfType node.type) (delayOfType node.type) node.inputs hall2 (st.2 nid)
  refine ⟨m, hmax, hmnn, ?_, ?_⟩
  · simp only [stepClass, hnode, hmf, hpredf]
  · have hScriptMax := maxFoldScript_eq_class st.1 node.inputs
      (fun i hi => ⟨(hall i hi).choose, (hall i hi).choose_spec.1⟩) 0
    have hs_eq : maxFoldScript st.1 0 node.inputs = m := by
      rw [hmf] at hScriptMax
      injection hScriptMax with h
      exact h.symm
    simp only [stepScript, stepClass, hnode, hmf, hs_eq]

theorem propagateWith_ok (c : Circuit) :
    ∀ (todo done : List String) (st : PropState),
      (done ++ todo).Nodup →
      (∀ x ∈ done ++ todo, x ∈ keys c) →
      (∀ s1 n s2, done ++ todo = s1 ++ n :: s2 → ∀ i ∈ inputsOf c n, i ∈ s1) →
      PropMid c done st →
      ∃ st2, propagateWith stepClass c st todo = .ok st2 ∧
        propagateWith stepScript c st todo = .ok st2 ∧
        PropMid c (done ++ todo) st2 := by
  intro todo
  induction todo with
  | nil =>
      intro done st _ _ _ hmid
      exact ⟨st, rfl, rfl, by simpa using hmid⟩
  | cons nid rest ih =>
      intro done st hnodup hsub hord hmid
      have hnid_key : nid ∈ keys c := hsub nid (by simp)
      obtain ⟨node, hnode⟩ := lookupNode_mem_keys.mp hnid_key
      have hord_nid := hord done nid rest rfl
      have hinputs_done : ∀ i ∈ node.inputs, i ∈ done := by
        intro i hi
        apply hord_nid
        rwa [inputsOf_lookup hnode]
      have hnid_not_done : nid ∉ done := by
        intro hd
        rw [List.nodup_append] at hnodup
        exact hnodup.2.2 hd (by simp)
      have hself : nid ∉ node.inputs := fun h => hnid_not_done (hinputs_done nid h)
      have hdone_closed : ∀ k ∈ done, ∀ i ∈ inputsOf c k, i ∈ done := by
        intro k hkdone i hi
        obtain ⟨s, t, hst⟩ := List.append_of_mem hkdone
        have hsplit : done ++ nid :: rest = s ++ k :: (t ++ nid :: rest) := by
          rw [hst]
          simp
        have := hord s k (t ++ nid :: rest) hsplit i hi
        rw [hst]
        exact List.mem_append.mpr (Or.inl this)
      have hall : ∀ i ∈ node.inputs, ∃ v, st.1 i = some v ∧ 0 ≤ v := by
        intro i hi
        obtain ⟨nodei, mi, _, _, harr⟩ := hmid.arrival i (hinputs_done i hi)
        exact ⟨mi + delayOfType nodei.type, harr, hmid.nonneg i _ harr⟩
      obtain ⟨m, hmax, hmnn, hclass, hscript⟩ := stepBoth_ok c hnode hself hall
      have hcdpos := delayOfType_pos node.type
      -- names for the updated tables
      have hagree : ∀ i, i ≠ nid →
          (fun x => if x = nid then some (m + delayOfType node.type) else st.1 x) i
            = st.1 i := by
        intro i hi
        simp [hi]
      have hmid2 : PropMid c (done ++ [nid])
          (fun x => if x = nid then some (m + delayOfType node.type) else st.1 x,
           fun x => if x = nid then
               (match (tieMatches
                   (fun y => if y = nid then some (m + delayOfType node.type) else st.1 y)
                   (m + delayOfType node.type) (delayOfType node.type) node.inputs).getLast? with
                | some y => some y
                | none => st.2 nid)
             else st.2 x) := by
        have hp0 : st.2 nid = none := hmid.untouchedP nid hnid_not_done
        constructor
        · -- untouchedD
          intro k hk
          have hk1 : k ∉ done := fun h => hk (List.mem_append.mpr (Or.inl h))
          have hk2 : ¬ k = nid := fun h => hk (List.mem_append.mpr (Or.inr (by simp [h])))
          simp only [hk2, if_false]
          exact hmid.untouchedD k hk1
        · -- untouchedP
          intro k hk
          have hk1 : k ∉ done := fun h => hk (List.mem_append.mpr (Or.inl h))
          have hk2 : ¬ k = nid := fun h => hk (List.mem_append.mpr (Or.inr (by simp [h])))
          simp only [hk2, if_false]
          exact hmid.untouchedP k hk1
        · -- arrival
          intro k hk
          rcases List.mem_append.mp hk with hkd | hknid
          · obtain ⟨nodek, mk, hlk, hmk, hvk⟩ := hmid.arrival k hkd
            have hkne : ¬ k = nid := fun h => hnid_not_done (h ▸ hkd)
            refine ⟨nodek, mk, hlk, ?_, ?_⟩
            · refine IsMaxArrival_congr ?_ hmk
              intro i hi
              have hid : i ∈ done := by
                apply hdone_closed k hkd
                rwa [inputsOf_lookup hlk]
              exact hagree i (fun h => hnid_not_done (h ▸ hid))
            · simp only [hkne, if_false]
              exact hvk
          · have hknid2 : k = nid := by simpa using hknid
            subst hknid2
            refine ⟨node, m, hnode, ?_, by simp⟩
            refine IsMaxArrival_congr ?_ hmax
            intro i hi
            exact hagree i (fun h => hself (h ▸ hi))
        · -- predLast
          intro k hk nodek hlk hne
          rcases List.mem_append.mp hk with hkd | hknid
          · have hkne : ¬ k = nid := fun h => hnid_not_done (h ▸ hkd)
            obtain ⟨dnk, hv, htne, hpred⟩ := hmid.predLast k hkd nodek hlk hne
            have hagree2 : ∀ i ∈ nodek.inputs,
                (fun y => if y = nid then some (m + delayOfType node.type) else st.1 y) i
                  = st.1 i := by
              intro i hi
              have hid : i ∈ done := by
                apply hdone_closed k hkd
                rwa [inputsOf_lookup hlk]
              exact hagree i (fun h => hnid_not_done (h ▸ hid))
            refine ⟨dnk, ?_, ?_, ?_⟩
            · simp only [hkne, if_false]
              exact hv
            · rw [tieMatches_congr hagree2]
              exact htne
            · simp only [hkne, if_false]
              rw [tieMatches_congr hagree2]
              exact hpred
          · have hknid2 : k = nid := by simpa using hknid
            rw [hknid2] at hlk ⊢
            rw [hnode] at hlk
            injection hlk with hlk2
            rw [← hlk2] at hne ⊢
            obtain ⟨i0, hi0, hv0⟩ := hmax.2.2 hne
            have hi0ne : ¬ i0 = nid := fun h => hself (h ▸ hi0)
            have hi0mem : i0 ∈ tieMatches
                (fun y => if y = nid then some (m + delayOfType node.type) else st.1 y)
                (m + delayOfType node.type) (delayOfType node.type) node.inputs := by
              unfold tieMatches
              rw [List.mem_filter]
              refine ⟨hi0, ?_⟩
              simp only [hi0ne, if_false]
              rw [hv0]
              simp
            have htne : tieMatches
                (fun y => if y = nid then some (m + delayOfType node.type) else st.1 y)
                (m + delayOfType node.type) (delayOfType node.type) node.inputs ≠ [] := by
              intro hnil
              rw [hnil] at hi0mem
              cases hi0mem
            obtain ⟨y, hy⟩ := Option.isSome_iff_exists.mp (List.getLast?_isSome.mpr htne)
            refine ⟨m + delayOfType node.type, by simp, htne, ?_⟩
            simp [hy]
        · -- predNone
          intro k hk nodek hlk hnil
          rcases List.mem_append.mp hk with hkd | hknid
          · have hkne : ¬ k = nid := fun h => hnid_not_done (h ▸ hkd)
            simp only [hkne, if_false]
            exact hmid.predNone k hkd nodek hlk hnil
          · have hknid2 : k = nid := by simpa using hknid
            rw [hknid2] at hlk ⊢
            rw [hnode] at hlk
            injection hlk with hlk2
            rw [← hlk2] at hnil
            simp only [if_pos rfl]
            have htm : tieMatches
                (fun y => if y = nid then some (m + delayOfType node.type) else st.1 y)
                (m + delayOfType node.type) (delayOfType node.type) node.inputs = [] := by
              rw [hnil]
              rfl
            rw [htm]
            simp only [List.getLast?_nil]
            exact hp0
        · -- nonneg
          intro k v hv
          by_cases hk : k = nid
          · subst hk
            simp only [if_pos rfl] at hv
            injection hv with hv2
            omega
          · simp only [hk, if_false] at hv
            exact hmid.nonneg k v hv
      have hre : (done ++ [nid]) ++ rest = done ++ nid :: rest := by simp
      obtain ⟨st2, hc2, hs2, hmidf⟩ := ih (done ++ [nid])
        (fun x => if x = nid then some (m + delayOfType node.type) else st.1 x,
         fun x => if x = nid then
             (match (tieMatches
                 (fun y => if y = nid then some (m + delayOfType node.type) else st.1 y)
                 (m + delayOfType node.type) (delayOfType node.type) node.inputs).getLast? with
              | some y => some y
              | none => st.2 nid)
           else st.2 x)
        (by rw [hre]; exact hnodup)
        (by rw [hre]; exact hsub)
        (by rw [hre]; exact hord)
        hmid2
      refine ⟨st2, ?_, ?_, ?_⟩
      · rw [propagateWith, hclass]
        exact hc2
      · rw [propagateWith, hscript, hclass]
        exact hs2
      · rw [← hre]
        exact hmidf

theorem propagate_ok (c : Circuit) (h : Valid c) :
    ∃ st, Circuit.propagate c = .ok st ∧ Script.propagate c = .ok st ∧
      PropMid c c.topological_sort st := by
  have spec := topological_sort_spec c h.nodup
  have hinit : PropMid c [] (initDelays c, initPreds) := by
    refine ⟨fun k _ => rfl, fun k _ => rfl, fun k hk => absurd hk (by simp),
      fun k hk => absurd hk (by simp), fun k hk => absurd hk (by simp), ?_⟩
    intro k v hv
    simp only [initDelays] at hv
    by_cases hk : k ∈ c.inputs
    · rw [if_pos hk] at hv
      injection hv with hv2
      omega
    · rw [if_neg hk] at hv
      cases hv
  obtain ⟨st2, h1, h2, h3⟩ := propagateWith_ok c c.topological_sort []
    (initDelays c, initPreds) (by simpa using spec.1) (by simpa using spec.2.1)
    (by simpa using spec.2.2.1) hinit
  exact ⟨st2, h1, h2, by simpa using h3⟩

theorem pickMaxGo_ok (delays : String → Option Int) :
    ∀ (l : List String) (bid : String) (bval : Int),
      (∀ o ∈ l, ∃ v, delays o = some v) → delays bid = some bval →
      ∃ b, pickMaxGo delays bid bval l = .ok b ∧ delays b.1 = some b.2 ∧
        (b.1 = bid ∨ b.1 ∈ l) := by
  intro l
  induction l with
  | nil => exact fun bid bval _ hb => ⟨(bid, bval), rfl, hb, Or.inl rfl⟩
  | cons o rest ih =>
      intro bid bval hall hb
      obtain ⟨v, hv⟩ := hall o (by simp)
      simp only [pickMaxGo, hv]
      by_cases hlt : bval < v
      · rw [if_pos hlt]
        obtain ⟨b, hres, hbd, hmem⟩ :=
          ih o v (fun x hx => hall x (List.mem_cons.mpr (Or.inr hx))) hv
        refine ⟨b, hres, hbd, ?_⟩
        rcases hmem with h1 | h2
        · exact Or.inr (by simp [h1])
        · exact Or.inr (List.mem_cons.mpr (Or.inr h2))
      · rw [if_neg hlt]
        obtain ⟨b, hres, hbd, hmem⟩ :=
          ih bid bval (fun x hx => hall x (List.mem_cons.mpr (Or.inr hx))) hb
        refine ⟨b, hres, hbd, ?_⟩
        rcases hmem with h1 | h2
        · exact Or.inl h1
        · exact Or.inr (List.mem_cons.mpr (Or.inr h2))

theorem pickMax_ok (delays : String → Option Int) (outs : List String)
    (hne : outs ≠ []) (hall : ∀ o ∈ outs, ∃ v, delays o = some v) :
    ∃ b, pickMax delays outs = .ok b ∧ delays b.1 = some b.2 ∧ b.1 ∈ outs := by
  match outs, hne with
  | o :: rest, _ =>
      obtain ⟨v, hv⟩ := hall o (by simp)
      simp only [pickMax, hv]
      obtain ⟨b, hres, hbd, hmem⟩ :=
        pickMaxGo_ok delays rest o v (fun x hx => hall x (List.mem_cons.mpr (Or.inr hx))) hv
      refine ⟨b, hres, hbd, ?_⟩
      rcases hmem with h1 | h2
      · simp [h1]
      · exact List.mem_cons.mpr (Or.inr h2)

theorem componentsOf_ok (c : Circuit) :
    ∀ l : List String, (∀ x ∈ l, x ∈ keys c) →
      ∃ comps, componentsOf c l = .ok comps := by
  intro l
  induction l with
  | nil => exact fun _ => ⟨[], rfl⟩
  | cons x rest ih =>
      intro hall
      obtain ⟨n, hn⟩ := lookupNode_mem_keys.mp (hall x (by simp))
      obtain ⟨comps, hcomps⟩ := ih (fun y hy => hall y (List.mem_cons.mpr (Or.inr hy)))
      exact ⟨(x, delayOfType n.type) :: comps, by rw [componentsOf, hn, hcomps]⟩

theorem walkBack_ok (preds : String → Option String) (ord : List String)
    (hstep : ∀ k i, preds k = some i → ∀ s1 s2, ord = s1 ++ k :: s2 → i ∈ s1) :
    ∀ (n : Nat) (cur : String) (s1 s2 : List String), ord = s1 ++ cur :: s2 →
      s1.length < n → ∀ (fuel : Nat), n ≤ fuel → ∀ acc,
      ∃ first mid, walkBack preds fuel cur acc = .ok (first :: mid) ∧
        preds first = none ∧ first ∈ ord ∧
        (∀ x ∈ first :: mid, x ∈ ord ∨ x ∈ acc) := by
  intro n
  induction n using Nat.strong_induction_on with
  | _ n ihn =>
      intro cur s1 s2 hsplit hlen fuel hfuel acc
      obtain ⟨f, rfl⟩ : ∃ f, fuel = f + 1 := ⟨fuel - 1, by omega⟩
      cases hp : preds cur with
          | none =>
              refine ⟨cur, acc, ?_, hp, by rw [hsplit]; simp, ?_⟩
              · simp only [walkBack, hp]
              · intro x hx
                rcases List.mem_cons.mp hx with rfl | hxa
                · exact Or.inl (by rw [hsplit]; simp)
                · exact Or.inr hxa
          | some p =>
              have hpmem : p ∈ s1 := hstep cur p hp s1 s2 hsplit
              obtain ⟨a, b, hab⟩ := List.append_of_mem hpmem
              have hsplit2 : ord = a ++ p :: (b ++ cur :: s2) := by
                rw [hsplit, hab]
                simp
              have halen : a.length + 1 ≤ s1.length := by
                rw [hab, List.length_append, List.length_cons]
                omega
              obtain ⟨first, mid, hres, hpf, hfm, hmem⟩ :=
                ihn (a.length + 1) (by omega) p a (b ++ cur :: s2) hsplit2
                  (by omega) f (by omega) (cur :: acc)
              refine ⟨first, mid, ?_, hpf, hfm, ?_⟩
              · simp only [walkBack, hp]
                exact hres
              · intro x hx
                rcases hmem x hx with h1 | h2
                · exact Or.inl h1
                · rcases List.mem_cons.mp h2 with rfl | h3
                  · exact Or.inl (by rw [hsplit]; simp)
                  · exact Or.inr h3

theorem find_critical_path_full (c : Circuit) (h : Valid c) (ho : c.outputs ≠ []) :
    ∃ st path td comps,
      Circuit.propagate c = .ok st ∧
      Circuit.find_critical_path c = .ok (path, td, comps) ∧
      Script.find_critical_path c = (path, td, comps) ∧
      (∃ first mid node, path = first :: mid ∧ lookupNode c first = some node ∧
        node.inputs = [] ∧ st.1 first = some (delayOfType node.type)) := by
  obtain ⟨st, hcp, hsp, hmid⟩ := propagate_ok c h
  have spec := topological_sort_spec c h.nodup
  have hcompl := topological_sort_complete c h
  have hdel : ∀ k ∈ keys c, ∃ v, st.1 k = some v := by
    intro k hk
    obtain ⟨node, m, _, _, hval⟩ := hmid.arrival k (hcompl k hk)
    exact ⟨_, hval⟩
  obtain ⟨bo, hpm, hbod, hbomem⟩ := pickMax_ok st.1 c.outputs ho
    (fun o hoo => hdel o (h.outputs_sub o hoo))
  have hstep : ∀ k i, st.2 k = some i →
      ∀ s1 s2, c.topological_sort = s1 ++ k :: s2 → i ∈ s1 := by
    intro k i hki s1 s2 hsplit
    have hkord : k ∈ c.topological_sort := by rw [hsplit]; simp
    obtain ⟨node, hnode⟩ := lookupNode_mem_keys.mp (spec.2.1 k hkord)
    by_cases hnil : node.inputs = []
    · rw [hmid.predNone k hkord node hnode hnil] at hki
      cases hki
    · obtain ⟨dn, _, htne, hpred⟩ := hmid.predLast k hkord node hnode hnil
      rw [hpred] at hki
      have himem : i ∈ tieMatches st.1 dn (delayOfType node.type) node.inputs :=
        List.mem_of_mem_getLast? hki
      have hiinp : i ∈ node.inputs := by
        unfold tieMatches at himem
        exact (List.mem_filter.mp himem).1
      exact spec.2.2.1 s1 k s2 hsplit i (by rwa [inputsOf_lookup hnode])
  have hbo_ord : bo.1 ∈ c.topological_sort := hcompl bo.1 (h.outputs_sub bo.1 hbomem)
  obtain ⟨s1, s2, hsplit⟩ := List.append_of_mem hbo_ord
  have hfuel : s1.length + 1 ≤ c.nodes.length + 1 := by
    have h1 : s1.length < (c.topological_sort).length := by
      rw [hsplit, List.length_append, List.length_cons]
      omega
    have h2 : (c.topological_sort).length ≤ (keys c).length :=
      nodup_length_le spec.1 h.nodup spec.2.1
    have h3 : (keys c).length = c.nodes.length := by simp [keys]
    omega
  obtain ⟨first, mid, hwalk, hpfirst, hford, hmemall⟩ :=
    walkBack_ok st.2 c.topological_sort hstep (s1.length + 1) bo.1 s1 s2 hsplit
      (by omega) (c.nodes.length + 1) hfuel []
  have hpathkeys : ∀ x ∈ first :: mid, x ∈ keys c := by
    intro x hx
    rcases hmemall x hx with h1 | h2
    · exact spec.2.1 x h1
    · cases h2
  obtain ⟨comps, hcomps⟩ := componentsOf_ok c (first :: mid) hpathkeys
  obtain ⟨nodef, hnodef⟩ := lookupNode_mem_keys.mp (spec.2.1 first hford)
  have hfnil : nodef.inputs = [] := by
    by_contra hne
    obtain ⟨dn, _, htne, hpred⟩ := hmid.predLast first hford nodef hnodef hne
    obtain ⟨y, hy⟩ := Option.isSome_iff_exists.mp (List.getLast?_isSome.mpr htne)
    rw [hpred, hy] at hpfirst
    cases hpfirst
  have hfval : st.1 first = some (delayOfType nodef.type) := by
    obtain ⟨nodef2, m, hnodef2, hmax, hval⟩ := hmid.arrival first hford
    rw [hnodef] at hnodef2
    injection hnodef2 with he
    have hm0 : m = 0 := hmax.1 (by rw [← he]; exact hfnil)
    rw [hval, hm0, zero_add, ← he]
  refine ⟨st, first :: mid, bo.2, comps, hcp, ?_, ?_,
    first, mid, nodef, rfl, hnodef, hfnil, hfval⟩
  · simp only [Circuit.find_critical_path, hcp, hpm, hwalk, hcomps]
  · simp only [Script.find_critical_path, Script.find_critical_path_core, hsp,
      hpm, hwalk, hcomps]

/-! ## Dangling references (C8) -/

theorem firstDangling_some {ns : List (String × Node)} {n i : String}
    (h : firstDangling ns = some (n, i)) :
    ∃ nd, (n, nd) ∈ ns ∧ i ∈ nd.inputs ∧ ∀ q ∈ ns, q.1 ≠ i := by
  unfold firstDangling at h
  obtain ⟨p, hp, hfp⟩ := List.exists_of_findSome?_eq_some h
  obtain ⟨i0, hfind, heq⟩ := Option.map_eq_some'.mp hfp
  have hp1 : p.1 = n := by
    have := congrArg Prod.fst heq
    simpa using this
  have hi0 : i0 = i := by
    have := congrArg Prod.snd heq
    simpa using this
  rw [hi0] at hfind
  have hmem : i ∈ p.2.inputs := List.mem_of_find?_eq_some hfind
  have hpred := List.find?_some hfind
  have hany : (ns.any (fun q => q.1 == i)) = false := by
    cases hb : (ns.any fun q => q.1 == i) with
    | false => rfl
    | true =>
        rw [hb] at hpred
        cases hpred
  refine ⟨p.2, ?_, hmem, ?_⟩
  · rw [← hp1, Prod.mk.eta]
    exact hp
  · intro q hq hq1
    have := List.any_eq_false.mp hany q hq
    simp [hq1] at this

theorem firstDangling_none {ns : List (String × Node)}
    (h : firstDangling ns = none) :
    ∀ p ∈ ns, ∀ i ∈ p.2.inputs, ∃ q ∈ ns, q.1 = i := by
  unfold firstDangling at h
  rw [List.findSome?_eq_none_iff] at h
  intro p hp i hi
  have hfp := h p hp
  rw [Option.map_eq_none'] at hfp
  rw [List.find?_eq_none] at hfp
  have h3 := hfp i hi
  cases hb : (ns.any fun q => q.1 == i) with
  | true =>
      obtain ⟨q, hq, hq1⟩ := List.any_eq_true.mp hb
      exact ⟨q, hq, by simpa using hq1⟩
  | false =>
      exfalso
      apply h3
      rw [hb]
      rfl

/-- C8 (amended): whenever some node's input list references an identity
never declared as a node, the build fails and no partial graph is
returned; the class builder's error names only the missing identity, the
module-level builder's message names both the offending node and the
missing identity but its handler swallows the exception and returns
`None`. -/
theorem dangling_reference_fails_build :
    ∀ decls : List Decl,
      (∃ p ∈ (buildCircuit decls).nodes, ∃ i ∈ p.2.inputs,
        ∀ q ∈ (buildCircuit decls).nodes, q.1 ≠ i) →
      ∃ n i nd, (n, nd) ∈ (buildCircuit decls).nodes ∧ i ∈ nd.inputs ∧
        (∀ q ∈ (buildCircuit decls).nodes, q.1 ≠ i) ∧
        Circuit.read_circuit decls =
          .error ("Error reading circuit: Undefined input node: " ++ i) ∧
        Script.read_circuit_core decls =
          .error ("Input " ++ i ++ " referenced by " ++ n ++ " not found in nodes.") ∧
        Script.read_circuit decls = none := by
  intro decls hex
  cases hfd : firstDangling (buildCircuit decls).nodes with
  | none =>
      exfalso
      obtain ⟨p, hp, i, hi, hall⟩ := hex
      obtain ⟨q, hq, hq1⟩ := firstDangling_none hfd p hp i hi
      exact hall q hq hq1
  | some pr =>
      obtain ⟨n, i⟩ := pr
      obtain ⟨nd, hmem, hinp, hnone⟩ := firstDangling_some hfd
      refine ⟨n, i, nd, hmem, hinp, hnone, ?_, ?_, ?_⟩
      · simp only [Circuit.read_circuit, hfd]
      · simp only [Script.read_circuit_core, hfd]
      · simp only [Script.read_circuit, Script.read_circuit_core, hfd, Except.toOption]

/-- Witness for C8 on the `ghost` scenario. -/
theorem dangling_reference_fails_build_witness :
    ∃ n i nd, (n, nd) ∈ (buildCircuit ghostDecls).nodes ∧ i ∈ nd.inputs ∧
      (∀ q ∈ (buildCircuit ghostDecls).nodes, q.1 ≠ i) ∧
      Circuit.read_circuit ghostDecls =
        .error ("Error reading circuit: Undefined input node: " ++ i) ∧
      Script.read_circuit_core ghostDecls =
        .error ("Input " ++ i ++ " referenced by " ++ n ++ " not found in nodes.") ∧
      Script.read_circuit ghostDecls = none :=
  dangling_reference_fails_build ghostDecls (by decide)

/-! ## Arrival-time recurrence (C4), predecessor rule (C1), input arrivals
and path head (C3), and pipeline agreement (C10) -/

/-- C4: after delay propagation on a valid acyclic graph, every node's
arrival time equals the maximum arrival time among its declared inputs
(0 if it has none) plus the node's component delay — the per-kind table
value, or the default for kinds not in the table — with exact equality
(delays are exact integer tenths here). -/
theorem arrival_time_recurrence (c : Circuit) (h : Valid c) :
    ∃ st, Circuit.propagate c = .ok st ∧
      ∀ p ∈ c.nodes, ∃ m, IsMaxArrival st.1 p.2.inputs m ∧
        st.1 p.1 = some (m + delayOfType p.2.type) := by
  obtain ⟨st, hcp, _, hmid⟩ := propagate_ok c h
  refine ⟨st, hcp, ?_⟩
  intro p hp
  have hpmem : (p.1, p.2) ∈ c.nodes := by
    rw [Prod.mk.eta]
    exact hp
  have hk : p.1 ∈ keys c := List.mem_map.mpr ⟨p, hp, rfl⟩
  obtain ⟨node, m, hnode, hmax, hval⟩ :=
    hmid.arrival p.1 (topological_sort_complete c h p.1 hk)
  have hlook : lookupNode c p.1 = some p.2 := lookupIn_of_mem h.nodup hpmem
  rw [hlook] at hnode
  injection hnode with he
  rw [← he] at hmax hval
  exact ⟨m, hmax, hval⟩

/-- Witness for C4 on the scenario graph. -/
theorem arrival_time_recurrence_witness :
    ∃ st, Circuit.propagate circuit1Graph = .ok st ∧
      ∀ p ∈ circuit1Graph.nodes, ∃ m, IsMaxArrival st.1 p.2.inputs m ∧
        st.1 p.1 = some (m + delayOfType p.2.type) :=
  arrival_time_recurrence circuit1Graph
    ⟨by decide, by decide, ⟨circuit1Rank, by decide⟩, by decide, by decide⟩

/-- C1 (amended): during propagation on a valid acyclic graph, every node
with declared inputs gets a predecessor entry equal to the LAST input in
its declared input order whose arrival plus the node's component delay
exactly equals the node's arrival (each match overwrites the entry), and
at least one input always matches. -/
theorem predecessor_records_last_tied_input (c : Circuit) (h : Valid c) :
    ∃ st, Circuit.propagate c = .ok st ∧
      ∀ p ∈ c.nodes, p.2.inputs ≠ [] →
        ∃ dn, st.1 p.1 = some dn ∧
          tieMatches st.1 dn (delayOfType p.2.type) p.2.inputs ≠ [] ∧
          st.2 p.1 = (tieMatches st.1 dn (delayOfType p.2.type) p.2.inputs).getLast? := by
  obtain ⟨st, hcp, _, hmid⟩ := propagate_ok c h
  refine ⟨st, hcp, ?_⟩
  intro p hp hne
  have hpmem : (p.1, p.2) ∈ c.nodes := by
    rw [Prod.mk.eta]
    exact hp
  have hk : p.1 ∈ keys c := List.mem_map.mpr ⟨p, hp, rfl⟩
  have hlook : lookupNode c p.1 = some p.2 := lookupIn_of_mem h.nodup hpmem
  exact hmid.predLast p.1 (topological_sort_complete c h p.1 hk) p.2 hlook hne

/-- Witness for C1 (amended) on the scenario graph. -/
theorem predecessor_records_last_tied_input_witness :
    ∃ st, Circuit.propagate circuit1Graph = .ok st ∧
      ∀ p ∈ circuit1Graph.nodes, p.2.inputs ≠ [] →
        ∃ dn, st.1 p.1 = some dn ∧
          tieMatches st.1 dn (delayOfType p.2.type) p.2.inputs ≠ [] ∧
          st.2 p.1 = (tieMatches st.1 dn (delayOfType p.2.type) p.2.inputs).getLast? :=
  predecessor_records_last_tied_input circuit1Graph
    ⟨by decide, by decide, ⟨circuit1Rank, by decide⟩, by decide, by decide⟩

/-- C3 (amended): after propagation on a valid acyclic graph whose
primary-input nodes are well-formed (`INPUT` kind, no declared inputs),
every primary input carries arrival time 0.5 time units — 5 tenths, its
default component delay, not 0 — and the first node of the extracted
critical path is a node with no declared inputs whose arrival time equals
its own component delay. -/
theorem input_arrival_equals_component_delay (c : Circuit) (h : Valid c)
    (hin : ∀ i ∈ c.inputs, ∃ n, lookupNode c i = some n ∧
      n.type = "INPUT" ∧ n.inputs = [])
    (ho : c.outputs ≠ []) :
    ∃ st path td comps, Circuit.propagate c = .ok st ∧
      Circuit.find_critical_path c = .ok (path, td, comps) ∧
      (∀ i ∈ c.inputs, st.1 i = some 5) ∧
      (∃ first mid node, path = first :: mid ∧ lookupNode c first = some node ∧
        node.inputs = [] ∧ st.1 first = some (delayOfType node.type)) := by
  obtain ⟨st0, hcp0, _, hmid⟩ := propagate_ok c h
  obtain ⟨st, path, td, comps, hcp, hfc, _, hfirst⟩ := find_critical_path_full c h ho
  have hst : st0 = st := by
    rw [hcp0] at hcp
    injection hcp
  subst hst
  refine ⟨st0, path, td, comps, hcp0, hfc, ?_, hfirst⟩
  intro i hi
  obtain ⟨n, hn, htype, hnil⟩ := hin i hi
  obtain ⟨node, m, hnode, hmax, hval⟩ := hmid.arrival i
    (topological_sort_complete c h i (h.inputs_sub i hi))
  rw [hn] at hnode
  injection hnode with he
  have hm0 : m = 0 := hmax.1 (by rw [← he]; exact hnil)
  rw [hval, hm0, ← he, htype]
  rfl

/-- Witness for C3 (amended) on the scenario graph. -/
theorem input_arrival_equals_component_delay_witness :
    ∃ st path td comps, Circuit.propagate circuit1Graph = .ok st ∧
      Circuit.find_critical_path circuit1Graph = .ok (path, td, comps) ∧
      (∀ i ∈ circuit1Graph.inputs, st.1 i = some 5) ∧
      (∃ first mid node, path = first :: mid ∧
        lookupNode circuit1Graph first = some node ∧
        node.inputs = [] ∧ st.1 first = some (delayOfType node.type)) :=
  input_arrival_equals_component_delay circuit1Graph
    ⟨by decide, by decide, ⟨circuit1Rank, by decide⟩, by decide, by decide⟩
    (by decide) (by decide)

/-- C10: on every valid acyclic graph with at least one primary output,
the class-based pipeline and the module-level pipeline return identical
results — the same critical path, total delay and per-node component
delay list. -/
theorem class_and_script_pipelines_agree (c : Circuit) (h : Valid c)
    (ho : c.outputs ≠ []) :
    ∃ r, Circuit.find_critical_path c = .ok r ∧ Script.find_critical_path c = r := by
  obtain ⟨st, path, td, comps, _, h1, h2, _⟩ := find_critical_path_full c h ho
  exact ⟨(path, td, comps), h1, h2⟩

/-- Witness for C10 on the scenario graph. -/
theorem class_and_script_pipelines_agree_witness :
    ∃ r, Circuit.find_critical_path circuit1Graph = .ok r ∧
      Script.find_critical_path circuit1Graph = r :=
  class_and_script_pipelines_agree circuit1Graph
    ⟨by decide, by decide, ⟨circuit1Rank, by decide⟩, by decide, by decide⟩
    (by decide)
